import Mathlib

/-
Verification development for the exact-inference (sum-product belief
propagation) engine of the PML2025 notebook 04_exact_inference.

The notebook represents discrete probability tables as labeled numpy
arrays (class Distribution), factor graphs as bipartite Variable/Factor
node graphs built by parsing a model string, and computes marginals by
memoized message passing (class Messages).

Shallow embedding conventions:
  - numpy arrays are embedded as NDArray: a shape (list of dimension
    sizes) plus a flat row-major data buffer of exact rationals;
  - numpy elementwise broadcasting product, reshape and axis summation
    are embedded as executable functions on NDArray;
  - Python dicts keyed by strings are embedded as association lists
    (lookup of the last inserted binding for a key, matching dict
    overwrite semantics);
  - raised Python exceptions are embedded as Except / Option errors;
  - in-place mutation of factor node state is embedded by explicit
    state passing: functions that may mutate the factor store take it
    as an argument and return the updated store.
-/

namespace BP

/-! ### Flat row-major arrays (embedding of numpy ndarrays) -/

/-- Product of a list of dimension sizes. -/
def listProd (l : List Nat) : Nat := l.foldr (fun a b => a * b) 1

/-- Row-major flat offset of a multi-index inside a shape. -/
def flatten : List Nat → List Nat → Nat
| _, [] => 0
| [], _ => 0
| _ :: ds, i :: is => i * listProd ds + flatten ds is

/-- A dense multi-dimensional array: dimension sizes plus a flat
row-major buffer of exact rationals (embedding a numpy float array). -/
structure NDArray where
  shape : List Nat
  data : List ℚ
deriving DecidableEq

/-- Number of dimensions, numpy ndim. -/
def NDArray.ndim (a : NDArray) : Nat := a.shape.length

/-- Element at a multi-index (0 outside the buffer). -/
def NDArray.get (a : NDArray) (idx : List Nat) : ℚ := a.data.getD (flatten a.shape idx) 0

/-- All multi-indices of a shape, in row-major order. -/
def allIdx : List Nat → List (List Nat)
| [] => [[]]
| d :: ds => ((List.range d).map (fun i => (allIdx ds).map (fun t => i :: t))).flatten

/-- Array of a given shape whose element at each multi-index is given by f. -/
def ofIdxFn (shape : List Nat) (f : List Nat → ℚ) : NDArray :=
  ⟨shape, (allIdx shape).map f⟩

/-- Boolean bounds check of a multi-index against a shape. -/
def validIdx : List Nat → List Nat → Bool
| [], [] => true
| d :: ds, i :: is => decide (i < d) && validIdx ds is
| _, _ => false

/-- numpy broadcasting of one pair of dimension sizes. -/
def bdim (a b : Nat) : Option Nat :=
  if a = b then some a else if a = 1 then some b else if b = 1 then some a else none

/-- numpy broadcasting of two shapes of equal rank. -/
def bshape : List Nat → List Nat → Option (List Nat)
| [], [] => some []
| d1 :: s1, d2 :: s2 =>
  match bdim d1 d2 with
  | none => none
  | some d =>
    match bshape s1 s2 with
    | none => none
    | some ds => some (d :: ds)
| _, _ => none

/-- Pad a shape on the left with size-1 dimensions up to rank r. -/
def padShape (r : Nat) (s : List Nat) : List Nat := List.replicate (r - s.length) 1 ++ s

/-- Map a multi-index of the broadcast result onto an operand of the
given shape: drop the extra leading coordinates, send coordinates of
size-1 dimensions to 0. -/
def bAdjust (s idx : List Nat) : List Nat :=
  List.zipWith (fun d i => if d = 1 then 0 else i) s (idx.drop (idx.length - s.length))

/-- numpy elementwise product with broadcasting; none embeds the numpy
broadcast error. -/
def npMul (a b : NDArray) : Option NDArray :=
  let r := max a.ndim b.ndim
  match bshape (padShape r a.shape) (padShape r b.shape) with
  | none => none
  | some rs =>
    some (ofIdxFn rs (fun idx => a.get (bAdjust a.shape idx) * b.get (bAdjust b.shape idx)))

/-- numpy sum over every axis not listed in keep (in the order of keep):
element at kidx is the sum of all entries whose coordinates at the kept
axes equal kidx. -/
def npSumKeep (a : NDArray) (keep : List Nat) : NDArray :=
  ofIdxFn (keep.map (fun i => a.shape.getD i 0)) (fun kidx =>
    (((allIdx a.shape).filter (fun idx => keep.map (fun i => idx.getD i 0) == kidx)).map
      (fun idx => a.get idx)).foldl (fun x y => x + y) 0)

/-! ### Labeled distributions (embedding of class Distribution) -/

/-- Discrete probability table: an array of values plus one axis label
per intended dimension (class Distribution of the notebook). -/
structure Distribution where
  probs : NDArray
  axes_labels : List String
deriving DecidableEq

/-- Embedding of Distribution.get_axes: the association list underlying
the Python dict from axis name to dimension index, in insertion order. -/
def Distribution.get_axes (d : Distribution) : List (String × Nat) :=
  d.axes_labels.enum.map (fun p => (p.2, p.1))

/-- Python dict lookup on an insertion-ordered association list: the
last binding for a key wins (dict overwrite semantics). -/
def dictGet (ps : List (String × Nat)) (k : String) : Option Nat := ps.reverse.lookup k

/-- Embedding of Distribution.get_other_axes_from: all dimension
indices whose label differs from the given one, in order. -/
def Distribution.get_other_axes_from (d : Distribution) (axis_label : String) : List Nat :=
  (d.axes_labels.enum.filter (fun p => p.2 != axis_label)).map (fun p => p.1)

/-- Python exceptions surfaced by the tensor algebra. -/
inductive PyErr
| keyError
| stopIteration
| valueError
deriving DecidableEq

/-- Embedding of numpy reshape onto the list
(-1 if i == axis else 1 for i in range(rank)): the flat buffer is kept,
the new shape is all 1 except the full size at the given axis.  When the
axis is out of range the list contains no -1 and numpy accepts the
reshape only for size-1 arrays. -/
def npReshapeOneHot (a : NDArray) (rank axis : Nat) : Option NDArray :=
  if axis < rank then
    some ⟨(List.range rank).map (fun i => if i = axis then listProd a.shape else 1), a.data⟩
  else if listProd a.shape = 1 then some ⟨List.replicate rank 1, a.data⟩
  else none

deriving instance DecidableEq for Except

/-- Embedding of the notebook function multiply(p_v_given_h, p_hi):
look up the position of the first axis name of p_hi inside p_v_given_h
(KeyError when absent, StopIteration when p_hi has no axis name at all),
reshape p_hi onto that axis unless it is a bare scalar, then broadcast
multiply; the result keeps the axis labels of p_v_given_h. -/
def multiply (p_v_given_h p_hi : Distribution) : Except PyErr Distribution :=
  match p_hi.get_axes with
  | [] => .error .stopIteration
  | (u, _) :: _ =>
    match dictGet p_v_given_h.get_axes u with
    | none => .error .keyError
    | some axis =>
      match
        (if p_hi.probs.shape ≠ [] then
          npReshapeOneHot p_hi.probs p_v_given_h.probs.ndim axis
        else some p_hi.probs) with
      | none => .error .valueError
      | some ru =>
        match npMul p_v_given_h.probs ru with
        | none => .error .valueError
        | some arr => .ok ⟨arr, p_v_given_h.axes_labels⟩

/-! ### Graph nodes (embedding of classes Node, Variable, Factor)

The Python classes form one hierarchy in which the dynamic type of a
node (Variable or Factor) decides which neighbors it accepts.  The
embedding tags nodes with their kind and stores neighbor references as
(kind, name) pairs. -/

/-- Dynamic kind of a graph node: Variable or Factor. -/
inductive NKind
| vr
| fc
deriving DecidableEq

/-- A graph node: name, dynamic kind, ordered neighbor references. -/
structure PNode where
  name : String
  kind : NKind
  neighbors : List (NKind × String)
deriving DecidableEq

/-- Embedding of Variable.is_valid_neighbor / Factor.is_valid_neighbor:
a Variable accepts exactly the Factors, a Factor exactly the Variables
(the isinstance checks of the notebook). -/
def PNode.is_valid_neighbor (self other : PNode) : Bool :=
  match self.kind with
  | .vr => other.kind == .fc
  | .fc => other.kind == .vr

/-- Embedding of Node.add_neighbor: assert the neighbor is valid and
append it; none embeds the AssertionError (the node is not changed). -/
def PNode.add_neighbor (self other : PNode) : Option PNode :=
  if self.is_valid_neighbor other then
    some { self with neighbors := self.neighbors ++ [(other.kind, other.name)] }
  else none

/-- Bipartite node invariant: every stored neighbor has the opposite kind. -/
def PNode.bipartiteOk (n : PNode) : Bool :=
  n.neighbors.all (fun p => p.1 != n.kind)

/-! ### Model-string parsing (embedding of the parsing cell) -/

/-- Embedding of the namedtuple ParsedTerm. -/
structure ParsedTerm where
  term : String
  var_name : List String
  given : List String
deriving DecidableEq

/-- Embedding of _parse_term: strip the enclosing parentheses, split at
the bar into main variables and conditioning variables, split both at
commas; none embeds the assertion / unpacking errors. -/
def parseTerm (t : String) : Option (List String × List String) :=
  if t.startsWith "(" && t.endsWith ")" then
    let inner := (t.drop 1).dropRight 1
    if inner.contains '|' then
      match inner.splitOn "|" with
      | [v, g] => some (v.splitOn ",", g.splitOn ",")
      | _ => none
    else some (inner.splitOn ",", [])
  else none

/-- Embedding of _parse_model_string_into_terms: split the model string
at each letter p, drop empty pieces, parse each piece and restore the
leading p in the stored term name. -/
def parseModelIntoTerms (s : String) : Option (List ParsedTerm) :=
  (s.splitOn "p").filter (fun t => t ≠ "") |>.mapM (fun t =>
    (parseTerm t).map (fun p => ⟨"p" ++ t, p.1, p.2⟩))

/-- Variable discovery order of parse_model_into_variables_and_factors:
iterate the parsed terms and collect each main variable name on first
sight (conditioning-only names are never added, as in the source). -/
def collectVars (ts : List ParsedTerm) : List String :=
  ts.foldl (fun acc t =>
    t.var_name.foldl (fun acc2 v => if acc2.contains v then acc2 else acc2 ++ [v]) acc) []

/-- A Variable node of the wired graph: name plus the names of its
neighboring factors in insertion order. -/
structure VarNode where
  name : String
  neighbors : List String
deriving DecidableEq

/-- A Factor node of the wired graph: name, the names of its
neighboring variables in insertion order, and its attached distribution
(none embeds the initial Python value None of Factor.data). -/
structure FactorNode where
  name : String
  neighbors : List String
  data : Option Distribution
deriving DecidableEq

/-- Append a factor name to the neighbor list of the named variable
(embedding variables[var_name].add_neighbor(new_factor)). -/
def addFacToVar (vs : List VarNode) (vname fname : String) : List VarNode :=
  vs.map (fun v => if v.name = vname then { v with neighbors := v.neighbors ++ [fname] } else v)

/-- Wire the factors of the parsed terms: each factor neighbors the
main variables followed by the conditioning variables; every referenced
name must be a known variable (none embeds the KeyError on
variables[var_name]). -/
def buildGraphAux (vnames : List String) :
    List ParsedTerm → List VarNode → Option (List FactorNode × List VarNode)
| [], vs => some ([], vs)
| t :: ts, vs =>
  let names := t.var_name ++ t.given
  if names.all (fun n => vnames.contains n) then
    match buildGraphAux vnames ts (names.foldl (fun acc n => addFacToVar acc n t.term) vs) with
    | none => none
    | some (fs, vs2) => some (⟨t.term, names, none⟩ :: fs, vs2)
  else none

/-- The wired probabilistic graphical model (embedding of class PGM):
the ordered factor list and the variable map in insertion order. -/
structure PGM where
  factors : List FactorNode
  vars : List VarNode
deriving DecidableEq

/-- Embedding of PGM.from_string via
parse_model_into_variables_and_factors. -/
def PGM.from_string (s : String) : Option PGM :=
  match parseModelIntoTerms s with
  | none => none
  | some ts =>
    let vnames := collectVars ts
    match buildGraphAux vnames ts (vnames.map (fun n => ⟨n, []⟩)) with
    | none => none
    | some (fs, vs) => some ⟨fs, vs⟩

/-! ### Distribution assignment (embedding of PGM.set_distributions) -/

/-- Errors raised by set_distributions: the raw dict KeyError on a
missing entry, the missing-axes ValueError, and the wrong-size
ValueError carrying the offending factor, the found size and the
expected size. -/
inductive SetErr
| keyErr (k : String)
| missingAxes (fname : String) (missing : List String)
| sizeErr (fname : String) (found expected : Nat)
deriving DecidableEq

/-- Python set equality of two name lists. -/
def setEq (a b : List String) : Bool :=
  a.all (fun x => b.contains x) && b.all (fun x => a.contains x)

/-- Embedding of the var_dims consistency loop: walk the
(axis name, size) pairs of one factor; record a first-seen size, raise
on a size that differs from the recorded one (payload: found size then
expected size, in the order of the raise in the source). -/
def checkDims : List (String × Nat) → List (String × Nat) → Except (Nat × Nat) (List (String × Nat))
| [], vd => .ok vd
| (v, d) :: rest, vd =>
  match vd.lookup v with
  | none => checkDims rest (vd ++ [(v, d)])
  | some e => if e ≠ d then .error (d, e) else checkDims rest vd

/-- Embedding of the loop body of PGM.set_distributions, processing the
factors in order and threading the local var_dims dict.  On an error
the loop stops with the already processed prefix mutated (tensor
attached) and the rest untouched, exactly as a raised Python exception
leaves the object state. -/
def setDistsAux (data : List (String × Distribution)) :
    List FactorNode → List (String × Nat) →
    (List FactorNode × List (String × Nat) × Option SetErr)
| [], vd => ([], vd, none)
| fac :: rest, vd =>
  match data.lookup fac.name with
  | none => (fac :: rest, vd, some (.keyErr fac.name))
  | some fd =>
    if setEq fd.axes_labels fac.neighbors then
      match checkDims (fd.axes_labels.zip fd.probs.shape) vd with
      | .error (found, expected) => (fac :: rest, vd, some (.sizeErr fac.name found expected))
      | .ok vd2 =>
        match setDistsAux data rest vd2 with
        | (rest2, vd3, err) => ({ fac with data := some fd } :: rest2, vd3, err)
    else
      (fac :: rest, vd, some (.missingAxes fac.name
        (fac.neighbors.filter (fun v => !(fd.axes_labels.contains v)))))

/-- Embedding of PGM.set_distributions: run the loop on the factor list
with an empty var_dims dict; the returned PGM carries the factor store
as the loop left it, plus the raised error if any. -/
def PGM.set_distributions (p : PGM) (data : List (String × Distribution)) :
    PGM × Option SetErr :=
  match setDistsAux data p.factors [] with
  | (fs, _, err) => ({ p with factors := fs }, err)

/-- Embedding of PGM.variable_from_name: dict lookup of a variable. -/
def PGM.variable_from_name (p : PGM) (var_name : String) : Option VarNode :=
  p.vars.find? (fun nd => nd.name = var_name)

/-! ### The message engine (embedding of class Messages)

The caching wrappers variable_to_factor_messages and
factor_to_variable_message are implemented in the source: look up the
(sender name, receiver name) key in the messages dict, compute and
store on a miss.  The bodies _variable_to_factor_messages (product of
the incoming messages of the other neighboring factors, scalar 1.0 for
a leaf), the multiply-and-marginalize part of
_factor_to_variable_messages, and marginal (normalized product of all
incoming messages) are TODO stubs in the notebook; they are modelled
from the spec (sections 4.1 and 4.3) below, at the places marked
Modelled from the spec.

Messages are Distribution values: a factor-to-variable message is 1-D
over the receiving variable, a base-case variable-to-factor message is
the scalar 1.0 carrying the variable as its axis name (rank 0, so the
scalar branch of multiply applies to it).  The messages dict is an
insertion-ordered association list; the factor store is threaded
through every call so that mutation of factor state would be visible. -/

/-- The messages dict of a Messages instance: insertion-ordered map
from (sender name, receiver name) to the cached message. -/
abbrev Cache := List ((String × String) × Distribution)

/-- Dict lookup in the message cache. -/
def cacheLookup (c : Cache) (k : String × String) : Option Distribution := c.lookup k

/-- Find a variable node by name. -/
def findVar (vars : List VarNode) (v : String) : Option VarNode :=
  vars.find? (fun nd => nd.name = v)

/-- Find a factor node by name. -/
def findFac (fs : List FactorNode) (f : String) : Option FactorNode :=
  fs.find? (fun nd => nd.name = f)

/-- Modelled from the spec: the multiplicative identity message, the
scalar 1.0 tagged with the axis name of the sending variable. -/
def scalarOne (v : String) : Distribution := ⟨⟨[], [1]⟩, [v]⟩

/-- Modelled from the spec: pointwise product of two messages over the
same variable; a rank-0 operand acts as a scalar factor.  Used for the
product of incoming messages in the variable-to-factor message and in
marginal. -/
def msgMul (a b : Distribution) : Distribution :=
  if a.probs.shape = [] then
    ⟨⟨b.probs.shape, b.probs.data.map (fun x => a.probs.data.getD 0 0 * x)⟩, b.axes_labels⟩
  else if b.probs.shape = [] then
    ⟨⟨a.probs.shape, a.probs.data.map (fun x => x * b.probs.data.getD 0 0)⟩, a.axes_labels⟩
  else
    ⟨⟨a.probs.shape, List.zipWith (fun x y => x * y) a.probs.data b.probs.data⟩, a.axes_labels⟩

/-- Modelled from the spec (sum_out of section 4.1, called on
get_other_axes_from as in the notebook skeleton): sum the array over
every axis whose label differs from the kept variable, producing the
1-D table over that variable. -/
def sumOther (d : Distribution) (vname : String) : Distribution :=
  ⟨npSumKeep d.probs ((d.axes_labels.enum.filter (fun p => p.2 == vname)).map (fun p => p.1)),
   d.axes_labels.filter (fun l => l == vname)⟩

/-- Sum of a list of rationals. -/
def listSum (l : List ℚ) : ℚ := l.foldl (fun a b => a + b) 0

/-- Modelled from the spec (normalize of section 4.1): divide by the
grand total; none embeds the undefined zero-total case. -/
def normalize (d : Distribution) : Option Distribution :=
  if listSum d.probs.data = 0 then none
  else some ⟨⟨d.probs.shape, d.probs.data.map (fun x => x / listSum d.probs.data)⟩, d.axes_labels⟩

/-- Sequentially compute one message per listed sender with a fixed
step function, threading the factor store and the cache and collecting
the messages in order. -/
def msgsFold (step : List FactorNode → Cache → String →
    Option (Distribution × List FactorNode × Cache)) :
    List FactorNode → Cache → List String →
    Option (List Distribution × List FactorNode × Cache)
| fs, c, [] => some ([], fs, c)
| fs, c, g :: gs =>
  match step fs c g with
  | none => none
  | some (m, fs1, c1) =>
    match msgsFold step fs1 c1 gs with
    | none => none
    | some (ms, fs2, c2) => some (m :: ms, fs2, c2)

/-- Sequentially multiply one message per listed sender into an
accumulating distribution with the source function multiply, threading
the factor store and the cache; none embeds a raised multiply error. -/
def mulFold (step : List FactorNode → Cache → String →
    Option (Distribution × List FactorNode × Cache)) :
    List FactorNode → Cache → List String → Distribution →
    Option (Distribution × List FactorNode × Cache)
| fs, c, [], d => some (d, fs, c)
| fs, c, u :: us, d =>
  match step fs c u with
  | none => none
  | some (m, fs1, c1) =>
    match multiply d m with
    | .error _ => none
    | .ok d2 => mulFold step fs1 c1 us d2

mutual

/-- Embedding of Messages.variable_to_factor_messages (the caching
wrapper, implemented in the source): return the cached message for the
key (variable name, factor name) if present, otherwise compute the
message and store it under that key.  The computation is the body of
_variable_to_factor_messages, Modelled from the spec: the product of
the messages of every neighboring factor except the receiver, the
scalar 1.0 when there is no such factor.  Fuel bounds the recursion
depth; every call consumes one unit. -/
def variable_to_factor_messages : Nat → List VarNode → List FactorNode → Cache →
    String → String → Option (Distribution × List FactorNode × Cache)
| 0, _, _, _, _, _ => none
| fuel+1, vars, fs, cache, v, f =>
  match cacheLookup cache (v, f) with
  | some m => some (m, fs, cache)
  | none =>
    match findVar vars v with
    | none => none
    | some nd =>
      match msgsFold (fun fs2 c2 g => factor_to_variable_message fuel vars fs2 c2 g v)
          fs cache (nd.neighbors.filter (fun g => g ≠ f)) with
      | none => none
      | some (ms, fs1, c1) =>
        let m := ms.foldl msgMul (scalarOne v)
        some (m, fs1, c1 ++ [((v, f), m)])

/-- Embedding of Messages.factor_to_variable_message (the caching
wrapper, implemented in the source): return the cached message for the
key (factor name, variable name) if present, otherwise compute the
message and store it under that key.  The computation is the body of
_factor_to_variable_messages: reinstantiate the distribution of the
factor, then (Modelled from the spec, matching the notebook skeleton)
multiply in the message of every neighboring variable except the
receiver via the source function multiply, and sum out every other
axis. -/
def factor_to_variable_message : Nat → List VarNode → List FactorNode → Cache →
    String → String → Option (Distribution × List FactorNode × Cache)
| 0, _, _, _, _, _ => none
| fuel+1, vars, fs, cache, f, v =>
  match cacheLookup cache (f, v) with
  | some m => some (m, fs, cache)
  | none =>
    match findFac fs f with
    | none => none
    | some fac =>
      match fac.data with
      | none => none
      | some d0 =>
        match mulFold (fun fs2 c2 u => variable_to_factor_messages fuel vars fs2 c2 u f)
            fs cache (fac.neighbors.filter (fun u => u ≠ v))
            (Distribution.mk d0.probs d0.axes_labels) with
        | none => none
        | some (d1, fs1, c1) =>
          let m := sumOther d1 v
          some (m, fs1, c1 ++ [((f, v), m)])

end

/-- Embedding of Messages.marginal, Modelled from the spec: the product
of the incoming messages of every neighboring factor of the variable
(the single incoming message when there is exactly one neighbor),
normalized; none embeds the stated error conditions (unknown variable,
no neighbor, zero total) and a failing recursive message computation. -/
def marginal (fuel : Nat) (vars : List VarNode) (fs : List FactorNode) (cache : Cache)
    (v : String) : Option (Distribution × List FactorNode × Cache) :=
  match findVar vars v with
  | none => none
  | some nd =>
    match msgsFold (fun fs2 c2 g => factor_to_variable_message fuel vars fs2 c2 g v)
        fs cache nd.neighbors with
    | none => none
    | some (ms, fs1, c1) =>
      match ms with
      | [] => none
      | m0 :: rest =>
        match normalize (rest.foldl msgMul m0) with
        | none => none
        | some d => some (d, fs1, c1)

/-! ### The per-edge message values (pure reference functions)

The fixed message value of each directed edge, written exactly as the
spec describes the two message kinds, with no cache: the
variable-to-factor message is the product over the other neighboring
factors of their messages, the factor-to-variable message multiplies
the messages of the other neighboring variables into the distribution
of the factor and sums out.  These are the values the memoizing engine
is proved to return. -/

/-- Compute one pure message per listed sender, in order. -/
def pureMsgs (step : String → Option Distribution) : List String → Option (List Distribution)
| [] => some []
| g :: gs =>
  match step g with
  | none => none
  | some m =>
    match pureMsgs step gs with
    | none => none
    | some ms => some (m :: ms)

/-- Multiply one pure message per listed sender into an accumulating
distribution with the source function multiply. -/
def pureMulFold (step : String → Option Distribution) :
    List String → Distribution → Option Distribution
| [], d => some d
| u :: us, d =>
  match step u with
  | none => none
  | some m =>
    match multiply d m with
    | .error _ => none
    | .ok d2 => pureMulFold step us d2

mutual

/-- The pure variable-to-factor message value of a directed edge,
Modelled from the spec: product over the other neighboring factors of
their pure messages, scalar 1.0 for a leaf variable. -/
def msgVFpure : Nat → List VarNode → List FactorNode → String → String → Option Distribution
| 0, _, _, _, _ => none
| fuel+1, vars, fs, v, f =>
  match findVar vars v with
  | none => none
  | some nd =>
    match pureMsgs (fun g => msgFVpure fuel vars fs g v) (nd.neighbors.filter (fun g => g ≠ f)) with
    | none => none
    | some ms => some (ms.foldl msgMul (scalarOne v))

/-- The pure factor-to-variable message value of a directed edge,
Modelled from the spec: multiply the pure messages of the other
neighboring variables into the distribution of the factor, sum out
every other axis. -/
def msgFVpure : Nat → List VarNode → List FactorNode → String → String → Option Distribution
| 0, _, _, _, _ => none
| fuel+1, vars, fs, f, v =>
  match findFac fs f with
  | none => none
  | some fac =>
    match fac.data with
    | none => none
    | some d0 =>
      match pureMulFold (fun u => msgVFpure fuel vars fs u f)
          (fac.neighbors.filter (fun u => u ≠ v)) (Distribution.mk d0.probs d0.axes_labels) with
      | none => none
      | some d1 => some (sumOther d1 v)

end

/-! ### The 4-node chain of the notebook -/

/-- p(h1) = [0.2, 0.8] over h1. -/
def pH1 : Distribution := ⟨⟨[2], [2/10, 8/10]⟩, ["h1"]⟩

/-- p(h2 given h1) = [[0.5, 0.2], [0.5, 0.8]] over (h2, h1). -/
def pH2givenH1 : Distribution := ⟨⟨[2, 2], [5/10, 2/10, 5/10, 8/10]⟩, ["h2", "h1"]⟩

/-- p(v1 given h1) = [[0.6, 0.1], [0.4, 0.9]] over (v1, h1). -/
def pV1givenH1 : Distribution := ⟨⟨[2, 2], [6/10, 1/10, 4/10, 9/10]⟩, ["v1", "h1"]⟩

/-- p(v2 given h2) = [[0.6, 0.1], [0.4, 0.9]] over (v2, h2). -/
def pV2givenH2 : Distribution := ⟨⟨[2, 2], [6/10, 1/10, 4/10, 9/10]⟩, ["v2", "h2"]⟩

/-- The distribution table handed to set_distributions for the chain. -/
def chainData : List (String × Distribution) :=
  [("p(h1)", pH1), ("p(h2|h1)", pH2givenH1), ("p(v1|h1)", pV1givenH1), ("p(v2|h2)", pV2givenH2)]

/-- The full notebook pipeline for the chain: parse the model string,
assign the distributions, run a fresh message engine and return the
requested marginal. -/
def chainMarg (v : String) : Option Distribution :=
  match PGM.from_string "p(h1)p(h2|h1)p(v1|h1)p(v2|h2)" with
  | none => none
  | some pgm =>
    match pgm.set_distributions chainData with
    | (_, some _) => none
    | (pgm2, none) => (marginal 32 pgm2.vars pgm2.factors [] v).map (fun o => o.1)

/-- The chain variable nodes as the parser wires them. -/
def chainVars : List VarNode :=
  [⟨"h1", ["p(h1)", "p(h2|h1)", "p(v1|h1)"]⟩, ⟨"h2", ["p(h2|h1)", "p(v2|h2)"]⟩,
   ⟨"v1", ["p(v1|h1)"]⟩, ⟨"v2", ["p(v2|h2)"]⟩]

/-- The chain factor nodes after distribution assignment. -/
def chainFs : List FactorNode :=
  [⟨"p(h1)", ["h1"], some pH1⟩, ⟨"p(h2|h1)", ["h2", "h1"], some pH2givenH1⟩,
   ⟨"p(v1|h1)", ["v1", "h1"], some pV1givenH1⟩, ⟨"p(v2|h2)", ["v2", "h2"], some pV2givenH2⟩]

/-! ### Graph well-formedness and cache coherence (for the engine proofs) -/

/-- The variable names of the graph. -/
def varNames (vars : List VarNode) : List String := vars.map (fun nd => nd.name)

/-- The factor names of the graph. -/
def facNames (fs : List FactorNode) : List String := fs.map (fun nd => nd.name)

/-- No name is both a variable name and a factor name, so a cache key
determines the direction of its edge. -/
def disjointNames (vars : List VarNode) (fs : List FactorNode) : Bool :=
  (varNames vars).all (fun nm => !((facNames fs).contains nm))

/-- Every neighbor reference resolves: variables neighbor factor names,
factors neighbor variable names (as the parser guarantees). -/
def wfGraph (vars : List VarNode) (fs : List FactorNode) : Bool :=
  vars.all (fun nd => nd.neighbors.all (fun g => (facNames fs).contains g)) &&
  fs.all (fun fac => fac.neighbors.all (fun w => (varNames vars).contains w))

/-- A cache is coherent when every stored entry is the pure per-edge
message value of its directed edge (at some recursion depth). -/
def Coherent (vars : List VarNode) (fs : List FactorNode) (cache : Cache) : Prop :=
  ∀ p m, (p, m) ∈ cache →
    (p.1 ∈ varNames vars ∧ p.2 ∈ facNames fs ∧
      ∃ k, msgVFpure k vars fs p.1 p.2 = some m) ∨
    (p.1 ∈ facNames fs ∧ p.2 ∈ varNames vars ∧
      ∃ k, msgFVpure k vars fs p.1 p.2 = some m)

/-! ### Small concrete graphs used to exercise set_distributions -/

/-- A two-factor graph with unary factors p(a) and p(b). -/
def pgmAB : PGM :=
  ⟨[⟨"p(a)", ["a"], none⟩, ⟨"p(b)", ["b"], none⟩], [⟨"a", ["p(a)"]⟩, ⟨"b", ["p(b)"]⟩]⟩

/-- Data for pgmAB whose second entry carries a wrong axis name. -/
def dataBadB : List (String × Distribution) :=
  [("p(a)", ⟨⟨[1], [1]⟩, ["a"]⟩), ("p(b)", ⟨⟨[1], [1]⟩, ["c"]⟩)]

/-- Data for pgmAB with a wrong axis name for p(a) and no entry for p(b). -/
def dataOnlyBadA : List (String × Distribution) :=
  [("p(a)", ⟨⟨[1], [1]⟩, ["c"]⟩)]

/-- A two-factor graph in which p(y given x) also mentions x. -/
def pgmXY : PGM :=
  ⟨[⟨"p(x)", ["x"], none⟩, ⟨"p(y|x)", ["y", "x"], none⟩],
   [⟨"x", ["p(x)", "p(y|x)"]⟩, ⟨"y", ["p(y|x)"]⟩]⟩

/-- Data for pgmXY whose two tensors give x the sizes 2 and 3, while
the second tensor also misses the axis y. -/
def dataXY : List (String × Distribution) :=
  [("p(x)", ⟨⟨[2], [1/2, 1/2]⟩, ["x"]⟩), ("p(y|x)", ⟨⟨[3], [1, 1, 1]⟩, ["x"]⟩)]

/-- A graph with two unary factors f1, f2 on the same variable x. -/
def pgmFF : PGM :=
  ⟨[⟨"f1", ["x"], none⟩, ⟨"f2", ["x"], none⟩], [⟨"x", ["f1", "f2"]⟩]⟩

/-- Data for pgmFF with axis sets matching but x sized 2 versus 3. -/
def dataFF : List (String × Distribution) :=
  [("f1", ⟨⟨[2], [1/2, 1/2]⟩, ["x"]⟩), ("f2", ⟨⟨[3], [1, 1, 1]⟩, ["x"]⟩)]

/-- A 2 by 3 conditional table over (v1, h1), used as a broadcast example. -/
def mulT : Distribution := ⟨⟨[2, 3], [4/10, 8/10, 9/10, 6/10, 2/10, 1/10]⟩, ["v1", "h1"]⟩

/-- A 1-D table over h1, used as a broadcast example. -/
def mulU : Distribution := ⟨⟨[3], [6/10, 3/10, 1/10]⟩, ["h1"]⟩

/-- Every factor has a data entry and that entry passes the axis-set
check: the proviso under which only the dimension check can fail. -/
def axesAllOk (data : List (String × Distribution)) (fs : List FactorNode) : Bool :=
  fs.all (fun fac =>
    match data.lookup fac.name with
    | some fd => setEq fd.axes_labels fac.neighbors
    | none => false)

/-- One association list extends another: every binding of the first
is a binding of the second. -/
def vdExtends (vd vd2 : List (String × Nat)) : Prop :=
  ∀ k x, vd.lookup k = some x → vd2.lookup k = some x

/-! ## Theorems -/

/-! ### Generic association-list facts -/

theorem lookup_eq_none_of_keys {β : Type} (ps : List (String × β)) (k : String)
    (h : ∀ p ∈ ps, p.1 ≠ k) : ps.lookup k = none := by
  induction ps with
  | nil => rfl
  | cons p ps ih =>
    have h1 : p.1 ≠ k := h p (by simp)
    have h2 : (k == p.1) = false := by
      simp only [beq_eq_false_iff_ne]
      exact fun e => h1 e.symm
    simp only [List.lookup, h2]
    exact ih (fun q hq => h q (by simp [hq]))

/-! ### C1: marginals of the 4-node chain -/

/-- C1: for the 4-node chain factor graph built from the model string
p(h1)p(h2|h1)p(v1|h1)p(v2|h2) with the stated tables, marginal(h1)
returns the 1-D distribution [0.2, 0.8] and marginal(v2) returns
[0.23, 0.77], each entry within 1e-9 of the stated value (the engine in
fact returns them exactly). -/
theorem chain_marginals_exact :
    (∃ d, chainMarg "h1" = some d ∧ d.probs.shape = [2] ∧ d.axes_labels = ["h1"] ∧
      |d.probs.data.getD 0 0 - 2/10| ≤ 1/1000000000 ∧
      |d.probs.data.getD 1 0 - 8/10| ≤ 1/1000000000) ∧
    (∃ d, chainMarg "v2" = some d ∧ d.probs.shape = [2] ∧ d.axes_labels = ["v2"] ∧
      |d.probs.data.getD 0 0 - 23/100| ≤ 1/1000000000 ∧
      |d.probs.data.getD 1 0 - 77/100| ≤ 1/1000000000) := by
  constructor
  · exact ⟨⟨⟨[2], [2/10, 8/10]⟩, ["h1"]⟩, by with_unfolding_all decide,
      rfl, rfl, by with_unfolding_all decide, by with_unfolding_all decide⟩
  · exact ⟨⟨⟨[2], [23/100, 77/100]⟩, ["v2"]⟩, by with_unfolding_all decide,
      rfl, rfl, by with_unfolding_all decide, by with_unfolding_all decide⟩

/-! ### C3: the message cache is consulted before any recomputation -/

/-- C3: both caching wrappers return the stored message unchanged for a
directed edge already present in the cache: the repeated request yields
the identical message, the factor store is untouched and not a single
cache entry is added, so each directed edge is computed at most once
per engine lifetime however many marginals are requested. -/
theorem cached_edge_reused (vars : List VarNode) (fs : List FactorNode) (cache : Cache)
    (fuel : Nat) (s r : String) (m : Distribution)
    (h : cacheLookup cache (s, r) = some m) :
    variable_to_factor_messages (fuel + 1) vars fs cache s r = some (m, fs, cache) ∧
    factor_to_variable_message (fuel + 1) vars fs cache s r = some (m, fs, cache) := by
  constructor
  · simp only [variable_to_factor_messages, h]
  · simp only [factor_to_variable_message, h]

theorem cached_edge_reused_witness :
    variable_to_factor_messages 1 chainVars chainFs [(("v1", "p(v1|h1)"), scalarOne "v1")]
      "v1" "p(v1|h1)" =
      some (scalarOne "v1", chainFs, [(("v1", "p(v1|h1)"), scalarOne "v1")]) ∧
    factor_to_variable_message 1 chainVars chainFs [(("v1", "p(v1|h1)"), scalarOne "v1")]
      "v1" "p(v1|h1)" =
      some (scalarOne "v1", chainFs, [(("v1", "p(v1|h1)"), scalarOne "v1")]) :=
  cached_edge_reused chainVars chainFs [(("v1", "p(v1|h1)"), scalarOne "v1")] 0
    "v1" "p(v1|h1)" (scalarOne "v1") (by with_unfolding_all decide)

/-! ### C7: multiply fails on an unknown axis name -/

/-- C7: multiplying a tensor T by a single-axis tensor U whose sole
axis name does not occur among the axis labels of T raises the
KeyError-kind lookup failure instead of returning a tensor. -/
theorem multiply_unknown_axis_keyerror (T U : Distribution) (u : String)
    (hu : U.axes_labels = [u]) (hnot : u ∉ T.axes_labels) :
    multiply T U = .error .keyError := by
  have hax : U.get_axes = [(u, 0)] := by
    simp [Distribution.get_axes, hu, List.enum, List.enumFrom]
  have hng : dictGet T.get_axes u = none := by
    apply lookup_eq_none_of_keys
    intro p hp
    have hp2 : p ∈ T.get_axes := List.mem_reverse.mp hp
    obtain ⟨q, hq, he⟩ := List.mem_map.mp hp2
    have hsnd : q.2 ∈ T.axes_labels := by
      have := List.mem_map_of_mem Prod.snd hq
      rwa [List.enum_map_snd] at this
    intro hk
    apply hnot
    have he2 : u = q.2 := by rw [← hk, ← he]
    rw [he2]
    exact hsnd
  simp only [multiply, hax, hng]

theorem multiply_unknown_axis_keyerror_witness :
    multiply ⟨⟨[2], [1, 1]⟩, ["a"]⟩ ⟨⟨[2], [1, 2]⟩, ["zz"]⟩ = .error .keyError :=
  multiply_unknown_axis_keyerror _ _ "zz" rfl (by decide)

/-! ### C8: the bipartite invariant is enforced at insertion time -/

/-- C8: add_neighbor refuses an invalid neighbor (a Variable given a
non-Factor or a Factor given a non-Variable) with an assertion failure
and appends nothing; on success the neighbor is appended and the
bipartite invariant of the neighbor list is preserved. -/
theorem add_neighbor_bipartite_enforced (n m : PNode) :
    (n.is_valid_neighbor m = false → n.add_neighbor m = none) ∧
    (∀ n2, n.add_neighbor m = some n2 →
      n.is_valid_neighbor m = true ∧
      n2.neighbors = n.neighbors ++ [(m.kind, m.name)] ∧
      (n.bipartiteOk = true → n2.bipartiteOk = true)) := by
  constructor
  · intro h
    simp [PNode.add_neighbor, h]
  · intro n2 h
    by_cases hv : n.is_valid_neighbor m = true
    · simp only [PNode.add_neighbor, hv, if_true, Option.some.injEq] at h
      subst h
      refine ⟨hv, rfl, ?_⟩
      intro hb
      simp only [PNode.bipartiteOk] at hb ⊢
      simp only [List.all_append, Bool.and_eq_true]
      refine ⟨hb, ?_⟩
      simp only [List.all_cons, List.all_nil, Bool.and_true]
      cases hn : n.kind <;> cases hm : m.kind <;> simp_all [PNode.is_valid_neighbor]
    · rw [Bool.not_eq_true] at hv
      simp [PNode.add_neighbor, hv] at h

theorem add_neighbor_bipartite_enforced_witness :
    (PNode.mk "x" .vr []).add_neighbor (PNode.mk "y" .vr []) = none :=
  (add_neighbor_bipartite_enforced (PNode.mk "x" .vr []) (PNode.mk "y" .vr [])).1 (by decide)

/-! ### Counterexamples on set_distributions (C2, C6, C10) -/

/-- C2 counterexample: a data table whose second factor fails the axis
check makes set_distributions raise, yet the first factor has already
had its tensor attached (its stored distribution changed from none to
some), so attachment is not deferred until all checks on all factors
pass. -/
theorem set_distributions_not_atomic_cex :
    ((pgmAB.set_distributions dataBadB).2.isSome = true) ∧
    ((pgmAB.set_distributions dataBadB).1.factors.head?.map (fun fc => fc.data.isSome) =
      some true) ∧
    (pgmAB.factors.head?.map (fun fc => fc.data.isSome) = some false) := by
  refine ⟨?_, ?_, ?_⟩ <;> with_unfolding_all decide

/-- C6 counterexample: the two tensors of dataXY give the variable x
the sizes 2 and 3, yet set_distributions fails with the missing-axes
error for p(y given x) (raised by the preceding axis-set check), not
with an error carrying the found and expected sizes. -/
theorem dim_conflict_error_kind_cex :
    (("x", 2) ∈ ((⟨⟨[2], [1/2, 1/2]⟩, ["x"]⟩ : Distribution).axes_labels.zip
      (⟨⟨[2], [1/2, 1/2]⟩, ["x"]⟩ : Distribution).probs.shape)) ∧
    (("x", 3) ∈ ((⟨⟨[3], [1, 1, 1]⟩, ["x"]⟩ : Distribution).axes_labels.zip
      (⟨⟨[3], [1, 1, 1]⟩, ["x"]⟩ : Distribution).probs.shape)) ∧
    (dataXY.lookup "p(x)" = some ⟨⟨[2], [1/2, 1/2]⟩, ["x"]⟩) ∧
    (dataXY.lookup "p(y|x)" = some ⟨⟨[3], [1, 1, 1]⟩, ["x"]⟩) ∧
    ((pgmXY.set_distributions dataXY).2 = some (.missingAxes "p(y|x)" ["y"])) := by
  refine ⟨?_, ?_, ?_, ?_, ?_⟩ <;> with_unfolding_all decide

/-! ### Association-list helper lemmas for set_distributions -/

theorem lookup_append_some {β : Type} (l1 l2 : List (String × β)) (k : String) (x : β)
    (h : l1.lookup k = some x) : (l1 ++ l2).lookup k = some x := by
  induction l1 with
  | nil => simp [List.lookup] at h
  | cons p l1 ih =>
    cases hkp : (k == p.1) with
    | true =>
      simp only [List.lookup, hkp] at h
      simp only [List.cons_append, List.lookup, hkp]
      exact h
    | false =>
      simp only [List.lookup, hkp] at h
      simp only [List.cons_append, List.lookup, hkp]
      exact ih h

theorem lookup_append_single {β : Type} (vd : List (String × β)) (v : String) (d : β)
    (h : vd.lookup v = none) : (vd ++ [(v, d)]).lookup v = some d := by
  induction vd with
  | nil => simp [List.lookup]
  | cons p vd ih =>
    cases hkp : (v == p.1) with
    | true => simp [List.lookup, hkp] at h
    | false =>
      simp only [List.lookup, hkp] at h
      simp only [List.cons_append, List.lookup, hkp]
      exact ih h

/-! ### Behaviour of the dimension-consistency check -/

theorem checkDims_error_ne (pairs : List (String × Nat)) :
    ∀ vd fo ex, checkDims pairs vd = .error (fo, ex) → fo ≠ ex := by
  induction pairs with
  | nil => intro vd fo ex h; simp [checkDims] at h
  | cons p rest ih =>
    obtain ⟨v, d⟩ := p
    intro vd fo ex h
    cases hl : vd.lookup v with
    | none =>
      have hh : checkDims ((v, d) :: rest) vd = checkDims rest (vd ++ [(v, d)]) := by
        simp [checkDims, hl]
      rw [hh] at h
      exact ih _ _ _ h
    | some e =>
      by_cases hne : e ≠ d
      · have hh : checkDims ((v, d) :: rest) vd = .error (d, e) := by
          simp [checkDims, hl, hne]
        rw [hh] at h
        have h2 : d = fo ∧ e = ex := by simpa using h
        omega
      · have hh : checkDims ((v, d) :: rest) vd = checkDims rest vd := by
          simp [checkDims, hl, hne]
        rw [hh] at h
        exact ih _ _ _ h

theorem checkDims_ok_binds (pairs : List (String × Nat)) :
    ∀ vd vd2, checkDims pairs vd = .ok vd2 →
      vdExtends vd vd2 ∧ ∀ p ∈ pairs, vd2.lookup p.1 = some p.2 := by
  induction pairs with
  | nil =>
    intro vd vd2 h
    simp only [checkDims] at h
    cases h
    exact ⟨fun k x hx => hx, by simp⟩
  | cons p rest ih =>
    obtain ⟨v, d⟩ := p
    intro vd vd2 h
    cases hl : vd.lookup v with
    | none =>
      have hh : checkDims ((v, d) :: rest) vd = checkDims rest (vd ++ [(v, d)]) := by
        simp [checkDims, hl]
      rw [hh] at h
      obtain ⟨hext, hbind⟩ := ih _ _ h
      have hstep : vdExtends vd (vd ++ [(v, d)]) :=
        fun k x hx => lookup_append_some vd _ k x hx
      refine ⟨fun k x hx => hext k x (hstep k x hx), ?_⟩
      intro q hq
      rcases List.mem_cons.mp hq with rfl | hq2
      · exact hext v d (lookup_append_single vd v d hl)
      · exact hbind q hq2
    | some e =>
      by_cases hne : e ≠ d
      · have hh : checkDims ((v, d) :: rest) vd = .error (d, e) := by
          simp [checkDims, hl, hne]
        rw [hh] at h
        cases h
      · have hh : checkDims ((v, d) :: rest) vd = checkDims rest vd := by
          simp [checkDims, hl, hne]
        rw [hh] at h
        rw [not_not] at hne
        obtain ⟨hext, hbind⟩ := ih _ _ h
        refine ⟨hext, ?_⟩
        intro q hq
        rcases List.mem_cons.mp hq with rfl | hq2
        · rw [← hne]
          exact hext v e hl
        · exact hbind q hq2

/-! ### The per-factor prefix behaviour of set_distributions (C2) -/

theorem setDistsAux_prefix (data : List (String × Distribution)) :
    ∀ fs vd, ∃ i, i ≤ fs.length ∧
      (setDistsAux data fs vd).1.length = fs.length ∧
      (∀ j, j < i → ∃ fc d, fs[j]? = some fc ∧ data.lookup fc.name = some d ∧
        (setDistsAux data fs vd).1[j]? = some { fc with data := some d }) ∧
      (∀ j, i ≤ j → (setDistsAux data fs vd).1[j]? = fs[j]?) ∧
      ((setDistsAux data fs vd).2.2 = none → i = fs.length) := by
  intro fs
  induction fs with
  | nil =>
    intro vd
    exact ⟨0, by simp [setDistsAux]⟩
  | cons fac rest ih =>
    intro vd
    cases hl : data.lookup fac.name with
    | none =>
      refine ⟨0, by simp, ?_, ?_, ?_, ?_⟩ <;> simp [setDistsAux, hl]
    | some fd =>
      cases hse : setEq fd.axes_labels fac.neighbors with
      | false =>
        refine ⟨0, by simp, ?_, ?_, ?_, ?_⟩ <;> simp [setDistsAux, hl, hse]
      | true =>
        cases hcd : checkDims (fd.axes_labels.zip fd.probs.shape) vd with
        | error pr =>
          refine ⟨0, by simp, ?_, ?_, ?_, ?_⟩ <;> simp [setDistsAux, hl, hse, hcd]
        | ok vd2 =>
          obtain ⟨i, hle, hlen, hpre, hpost, hnone⟩ := ih vd2
          have hstep : setDistsAux data (fac :: rest) vd =
              ({ fac with data := some fd } :: (setDistsAux data rest vd2).1,
               (setDistsAux data rest vd2).2.1, (setDistsAux data rest vd2).2.2) := by
            simp [setDistsAux, hl, hse, hcd]
          refine ⟨i + 1, by simpa using hle, ?_, ?_, ?_, ?_⟩
          · rw [hstep]
            simpa using hlen
          · intro j hj
            rw [hstep]
            cases j with
            | zero => exact ⟨fac, fd, by simp, hl, by simp⟩
            | succ j2 =>
              obtain ⟨fc, d, h1, h2, h3⟩ := hpre j2 (by omega)
              exact ⟨fc, d, by simpa using h1, h2, by simpa using h3⟩
          · intro j hj
            rw [hstep]
            cases j with
            | zero => omega
            | succ j2 => simpa using hpost j2 (by omega)
          · rw [hstep]
            intro he
            have := hnone he
            simp [this]

/-- C2 amended: set_distributions validates and attaches per factor in
order: there is a cut index i such that every factor before i has its
tensor attached (its checks passed), every factor from i on is
unmodified, and the call succeeds exactly when i covers all factors —
so a failure at a later factor leaves the earlier tensors attached
rather than rolling them back. -/
theorem set_distributions_prefix_attach (p : PGM) (data : List (String × Distribution)) :
    ∃ i, i ≤ p.factors.length ∧
      (p.set_distributions data).1.factors.length = p.factors.length ∧
      (∀ j, j < i → ∃ fc d, p.factors[j]? = some fc ∧ data.lookup fc.name = some d ∧
        (p.set_distributions data).1.factors[j]? = some { fc with data := some d }) ∧
      (∀ j, i ≤ j → (p.set_distributions data).1.factors[j]? = p.factors[j]?) ∧
      ((p.set_distributions data).2 = none → i = p.factors.length) := by
  obtain ⟨i, h1, h2, h3, h4, h5⟩ := setDistsAux_prefix data p.factors []
  exact ⟨i, h1, h2, h3, h4, h5⟩

/-! ### Dimension conflicts under the axis proviso (C6) -/

theorem setDistsAux_ok_consistent (data : List (String × Distribution)) :
    ∀ fs vd fs2 vd3, setDistsAux data fs vd = (fs2, vd3, none) →
      vdExtends vd vd3 ∧
      ∀ fac ∈ fs, ∀ fd, data.lookup fac.name = some fd →
        ∀ p ∈ fd.axes_labels.zip fd.probs.shape, vd3.lookup p.1 = some p.2 := by
  intro fs
  induction fs with
  | nil =>
    intro vd fs2 vd3 h
    simp only [setDistsAux, Prod.mk.injEq] at h
    obtain ⟨-, h2, -⟩ := h
    subst h2
    exact ⟨fun k x hx => hx, by simp⟩
  | cons fac rest ih =>
    intro vd fs2 vd3 h
    cases hl : data.lookup fac.name with
    | none => simp [setDistsAux, hl] at h
    | some fd =>
      cases hse : setEq fd.axes_labels fac.neighbors with
      | false => simp [setDistsAux, hl, hse] at h
      | true =>
        cases hcd : checkDims (fd.axes_labels.zip fd.probs.shape) vd with
        | error pr => simp [setDistsAux, hl, hse, hcd] at h
        | ok vd2 =>
          have hstep : setDistsAux data (fac :: rest) vd =
              ({ fac with data := some fd } :: (setDistsAux data rest vd2).1,
               (setDistsAux data rest vd2).2.1, (setDistsAux data rest vd2).2.2) := by
            simp [setDistsAux, hl, hse, hcd]
          rw [hstep] at h
          obtain ⟨hcde, hcdb⟩ := checkDims_ok_binds _ _ _ hcd
          have h2 : setDistsAux data rest vd2 =
              ((setDistsAux data rest vd2).1, (setDistsAux data rest vd2).2.1, none) := by
            have hh := congrArg (fun t => t.2.2) h
            simp at hh
            rw [← hh]
          obtain ⟨hext, hbind⟩ := ih vd2 _ _ h2
          have hvd3 : (setDistsAux data rest vd2).2.1 = vd3 := by
            have hh := congrArg (fun t => t.2.1) h
            simpa using hh
          rw [hvd3] at hext hbind
          refine ⟨fun k x hx => hext k x (hcde k x hx), ?_⟩
          intro fc hfc fd2 hfd2 q hq
          rcases List.mem_cons.mp hfc with rfl | hfc2
          · rw [hl] at hfd2
            cases hfd2
            exact hext q.1 q.2 (hcdb q hq)
          · exact hbind fc hfc2 fd2 hfd2 q hq

theorem setDistsAux_err_classify (data : List (String × Distribution)) :
    ∀ fs vd, axesAllOk data fs = true →
      (setDistsAux data fs vd).2.2 = none ∨
      ∃ f fo ex, (setDistsAux data fs vd).2.2 = some (.sizeErr f fo ex) ∧ fo ≠ ex := by
  intro fs
  induction fs with
  | nil =>
    intro vd hok
    left
    simp [setDistsAux]
  | cons fac rest ih =>
    intro vd hok
    simp only [axesAllOk, List.all_cons, Bool.and_eq_true] at hok
    obtain ⟨hok1, hok2⟩ := hok
    cases hl : data.lookup fac.name with
    | none => rw [hl] at hok1; simp at hok1
    | some fd =>
      rw [hl] at hok1
      have hse : setEq fd.axes_labels fac.neighbors = true := by simpa using hok1
      cases hcd : checkDims (fd.axes_labels.zip fd.probs.shape) vd with
      | error pr =>
        obtain ⟨fo, ex⟩ := pr
        right
        refine ⟨fac.name, fo, ex, ?_, checkDims_error_ne _ _ _ _ hcd⟩
        simp [setDistsAux, hl, hse, hcd]
      | ok vd2 =>
        have hstep : (setDistsAux data (fac :: rest) vd).2.2 =
            (setDistsAux data rest vd2).2.2 := by
          simp [setDistsAux, hl, hse, hcd]
        rw [hstep]
        exact ih vd2 (by simpa [axesAllOk] using hok2)

/-- C6 amended: when every factor has a data entry whose axis set
matches its neighbor set, any two entries giving the same axis name
different sizes make set_distributions fail deterministically with the
wrong-size error, which names an offending factor, the found size and
the expected size (and the two sizes indeed differ). -/
theorem dim_conflict_fails_sizeerr (data : List (String × Distribution))
    (fs : List FactorNode) (vd : List (String × Nat))
    (hok : axesAllOk data fs = true)
    (hc : ∃ f1 f2 fd1 fd2 v d1 d2, f1 ∈ fs ∧ f2 ∈ fs ∧
      data.lookup f1.name = some fd1 ∧ data.lookup f2.name = some fd2 ∧
      (v, d1) ∈ fd1.axes_labels.zip fd1.probs.shape ∧
      (v, d2) ∈ fd2.axes_labels.zip fd2.probs.shape ∧ d1 ≠ d2) :
    ∃ f fo ex, (setDistsAux data fs vd).2.2 = some (.sizeErr f fo ex) ∧ fo ≠ ex := by
  rcases setDistsAux_err_classify data fs vd hok with hnone | hsz
  · exfalso
    obtain ⟨f1, f2, fd1, fd2, v, d1, d2, hm1, hm2, hl1, hl2, hz1, hz2, hne⟩ := hc
    have htrip : setDistsAux data fs vd =
        ((setDistsAux data fs vd).1, (setDistsAux data fs vd).2.1, none) := by
      rw [← hnone]
    obtain ⟨-, hbind⟩ := setDistsAux_ok_consistent data fs vd _ _ htrip
    have e1 : (setDistsAux data fs vd).2.1.lookup v = some d1 := hbind f1 hm1 fd1 hl1 (v, d1) hz1
    have e2 : (setDistsAux data fs vd).2.1.lookup v = some d2 := hbind f2 hm2 fd2 hl2 (v, d2) hz2
    rw [e1] at e2
    exact hne (Option.some.inj e2)
  · exact hsz

theorem dim_conflict_fails_sizeerr_witness :
    ∃ f fo ex, (setDistsAux dataFF pgmFF.factors []).2.2 = some (.sizeErr f fo ex) ∧ fo ≠ ex :=
  dim_conflict_fails_sizeerr dataFF pgmFF.factors [] (by with_unfolding_all decide)
    ⟨⟨"f1", ["x"], none⟩, ⟨"f2", ["x"], none⟩, ⟨⟨[2], [1/2, 1/2]⟩, ["x"]⟩,
     ⟨⟨[3], [1, 1, 1]⟩, ["x"]⟩, "x", 2, 3,
     by with_unfolding_all decide, by with_unfolding_all decide,
     by with_unfolding_all decide, by with_unfolding_all decide,
     by with_unfolding_all decide, by with_unfolding_all decide, by decide⟩

/-! ### Missing data entries (C10) -/

theorem setDistsAux_append (data : List (String × Distribution)) (l1 l2 : List FactorNode) :
    ∀ vd, setDistsAux data (l1 ++ l2) vd =
      match setDistsAux data l1 vd with
      | (l1r, vd1, none) =>
        match setDistsAux data l2 vd1 with
        | (l2r, vd2, e) => (l1r ++ l2r, vd2, e)
      | (l1r, vd1, some e) => (l1r ++ l2, vd1, some e) := by
  induction l1 with
  | nil =>
    intro vd
    rcases hE : setDistsAux data l2 vd with ⟨l2r, vd2, e⟩
    simp [setDistsAux, hE]
  | cons fac rest ih =>
    intro vd
    cases hl : data.lookup fac.name with
    | none => simp [setDistsAux, hl]
    | some fd =>
      cases hse : setEq fd.axes_labels fac.neighbors with
      | false => simp [setDistsAux, hl, hse]
      | true =>
        cases hcd : checkDims (fd.axes_labels.zip fd.probs.shape) vd with
        | error pr =>
          obtain ⟨fo, ex⟩ := pr
          simp [setDistsAux, hl, hse, hcd]
        | ok vd2 =>
          have hstep1 : setDistsAux data ((fac :: rest) ++ l2) vd =
              ({ fac with data := some fd } :: (setDistsAux data (rest ++ l2) vd2).1,
               (setDistsAux data (rest ++ l2) vd2).2.1,
               (setDistsAux data (rest ++ l2) vd2).2.2) := by
            simp [setDistsAux, hl, hse, hcd]
          have hstep2 : setDistsAux data (fac :: rest) vd =
              ({ fac with data := some fd } :: (setDistsAux data rest vd2).1,
               (setDistsAux data rest vd2).2.1, (setDistsAux data rest vd2).2.2) := by
            simp [setDistsAux, hl, hse, hcd]
          rw [hstep1, hstep2, ih vd2]
          rcases hr : setDistsAux data rest vd2 with ⟨r1, rv, re⟩
          cases re with
          | none =>
            rcases hl2 : setDistsAux data l2 rv with ⟨s1, sv, se⟩
            simp
          | some e0 => simp

/-- C10 amended: when the factors preceding a factor without a data
entry all pass their checks, set_distributions fails with the raw dict
KeyError naming that factor, before any axis or dimension validation
for it: the factor and everything after it are left untouched. -/
theorem missing_entry_keyerror (data : List (String × Distribution))
    (pre : List FactorNode) (fac : FactorNode) (rest : List FactorNode)
    (vd vd1 : List (String × Nat)) (pre2 : List FactorNode)
    (hpre : setDistsAux data pre vd = (pre2, vd1, none))
    (hmiss : data.lookup fac.name = none) :
    setDistsAux data (pre ++ fac :: rest) vd =
      (pre2 ++ fac :: rest, vd1, some (.keyErr fac.name)) := by
  rw [setDistsAux_append data pre (fac :: rest) vd, hpre]
  simp [setDistsAux, hmiss]

theorem missing_entry_keyerror_witness :
    setDistsAux [("p(a)", ⟨⟨[1], [1]⟩, ["a"]⟩)]
      ([⟨"p(a)", ["a"], none⟩] ++ ⟨"p(b)", ["b"], none⟩ :: []) [] =
      ([⟨"p(a)", ["a"], some ⟨⟨[1], [1]⟩, ["a"]⟩⟩] ++ ⟨"p(b)", ["b"], none⟩ :: [],
       [("a", 1)], some (.keyErr "p(b)")) :=
  missing_entry_keyerror [("p(a)", ⟨⟨[1], [1]⟩, ["a"]⟩)] [⟨"p(a)", ["a"], none⟩]
    ⟨"p(b)", ["b"], none⟩ [] [] [("a", 1)] [⟨"p(a)", ["a"], some ⟨⟨[1], [1]⟩, ["a"]⟩⟩]
    (by with_unfolding_all decide) (by with_unfolding_all decide)

/-! ### The memoizing engine computes the pure per-edge messages (C4) -/

theorem mem_of_lookup_eq_some {α β : Type} [BEq α] [LawfulBEq α] :
    ∀ (ps : List (α × β)) (k : α) (x : β), ps.lookup k = some x → (k, x) ∈ ps := by
  intro ps
  induction ps with
  | nil => intro k x h; simp [List.lookup] at h
  | cons p ps ih =>
    intro k x h
    cases hkp : (k == p.1) with
    | true =>
      simp only [List.lookup, hkp] at h
      cases h
      have hk : k = p.1 := by simpa using hkp
      rw [hk]
      exact List.mem_cons_self p ps
    | false =>
      simp only [List.lookup, hkp] at h
      exact List.mem_cons_of_mem _ (ih k x h)


theorem pureMsgs_mono_step (stepA stepB : String → Option Distribution)
    (hs : ∀ g m, stepA g = some m → stepB g = some m) :
    ∀ gs ms, pureMsgs stepA gs = some ms → pureMsgs stepB gs = some ms := by
  intro gs
  induction gs with
  | nil => intro ms h; exact h
  | cons g gs ih =>
    intro ms h
    simp only [pureMsgs] at h ⊢
    split at h
    · exact absurd h (by simp)
    next m hm =>
      split at h
      · exact absurd h (by simp)
      next ms2 hms2 =>
        cases h
        have h1 := hs g m hm
        have h2 := ih ms2 hms2
        simp only [h1, h2]

theorem pureMulFold_mono_step (stepA stepB : String → Option Distribution)
    (hs : ∀ g m, stepA g = some m → stepB g = some m) :
    ∀ us d dout, pureMulFold stepA us d = some dout → pureMulFold stepB us d = some dout := by
  intro us
  induction us with
  | nil => intro d dout h; exact h
  | cons u us ih =>
    intro d dout h
    simp only [pureMulFold] at h ⊢
    split at h
    · exact absurd h (by simp)
    next m hm =>
      split at h
      · exact absurd h (by simp)
      next d2 hd2 =>
        have h1 := hs u m hm
        simp only [h1, hd2]
        exact ih d2 dout h

theorem msgPure_mono : ∀ fuel : Nat,
    (∀ vars fs v f m, msgVFpure fuel vars fs v f = some m →
      msgVFpure (fuel + 1) vars fs v f = some m) ∧
    (∀ vars fs f v m, msgFVpure fuel vars fs f v = some m →
      msgFVpure (fuel + 1) vars fs f v = some m) := by
  intro fuel
  induction fuel with
  | zero =>
    constructor <;> intro vars fs a b m h <;> simp [msgVFpure, msgFVpure] at h
  | succ fuel ih =>
    obtain ⟨ihv, ihf⟩ := ih
    constructor
    · intro vars fs v f m h
      simp only [msgVFpure] at h ⊢
      split at h
      · exact absurd h (by simp)
      next nd hnd =>
        split at h
        · exact absurd h (by simp)
        next ms hms =>
          cases h
          have hlift := pureMsgs_mono_step (fun g => msgFVpure fuel vars fs g v)
            (fun g => msgFVpure (fuel + 1) vars fs g v)
            (fun g m2 hm2 => ihf vars fs g v m2 hm2) _ ms hms
          simp only [hnd, hlift]
    · intro vars fs f v m h
      simp only [msgFVpure] at h ⊢
      split at h
      · exact absurd h (by simp)
      next fac hfac =>
        split at h
        · exact absurd h (by simp)
        next d0 hd0 =>
          split at h
          · exact absurd h (by simp)
          next d1 hd1 =>
            cases h
            have hlift := pureMulFold_mono_step (fun w => msgVFpure fuel vars fs w f)
              (fun w => msgVFpure (fuel + 1) vars fs w f)
              (fun w m2 hm2 => ihv vars fs w f m2 hm2) _ _ _ hd1
            simp only [hfac, hd0, hlift]

theorem msgPure_mono_le (k1 : Nat) : ∀ d : Nat,
    (∀ vars fs v f m, msgVFpure k1 vars fs v f = some m →
      msgVFpure (k1 + d) vars fs v f = some m) ∧
    (∀ vars fs f v m, msgFVpure k1 vars fs f v = some m →
      msgFVpure (k1 + d) vars fs f v = some m) := by
  intro d
  induction d with
  | zero => exact ⟨fun _ _ _ _ _ h => h, fun _ _ _ _ _ h => h⟩
  | succ d ih =>
    refine ⟨fun vars fs v f m h => ?_, fun vars fs f v m h => ?_⟩
    · exact (msgPure_mono (k1 + d)).1 vars fs v f m (ih.1 vars fs v f m h)
    · exact (msgPure_mono (k1 + d)).2 vars fs f v m (ih.2 vars fs f v m h)

theorem msgVFpure_le (k1 k2 : Nat) (hle : k1 ≤ k2) (vars : List VarNode) (fs : List FactorNode)
    (v f : String) (m : Distribution) (h : msgVFpure k1 vars fs v f = some m) :
    msgVFpure k2 vars fs v f = some m := by
  have hd : k2 = k1 + (k2 - k1) := by omega
  rw [hd]
  exact (msgPure_mono_le k1 (k2 - k1)).1 vars fs v f m h

theorem msgFVpure_le (k1 k2 : Nat) (hle : k1 ≤ k2) (vars : List VarNode) (fs : List FactorNode)
    (f v : String) (m : Distribution) (h : msgFVpure k1 vars fs f v = some m) :
    msgFVpure k2 vars fs f v = some m := by
  have hd : k2 = k1 + (k2 - k1) := by omega
  rw [hd]
  exact (msgPure_mono_le k1 (k2 - k1)).2 vars fs f v m h

theorem Coherent_append (vars : List VarNode) (fs : List FactorNode) (cache : Cache)
    (hc : Coherent vars fs cache) (key : String × String) (m : Distribution)
    (hnew : (key.1 ∈ varNames vars ∧ key.2 ∈ facNames fs ∧
        ∃ k, msgVFpure k vars fs key.1 key.2 = some m) ∨
      (key.1 ∈ facNames fs ∧ key.2 ∈ varNames vars ∧
        ∃ k, msgFVpure k vars fs key.1 key.2 = some m)) :
    Coherent vars fs (cache ++ [(key, m)]) := by
  intro p m2 hp
  rcases List.mem_append.mp hp with h1 | h2
  · exact hc p m2 h1
  · have h3 : (p, m2) = (key, m) := by simpa using h2
    injection h3 with hA hB
    subst hA
    subst hB
    exact hnew

theorem findVar_name_mem (vars : List VarNode) (v : String) (nd : VarNode)
    (h : findVar vars v = some nd) : nd ∈ vars ∧ nd.name = v := by
  unfold findVar at h
  refine ⟨List.mem_of_find?_eq_some h, ?_⟩
  have hp := List.find?_some h
  simpa using hp

theorem findFac_name_mem (fs : List FactorNode) (f : String) (fac : FactorNode)
    (h : findFac fs f = some fac) : fac ∈ fs ∧ fac.name = f := by
  unfold findFac at h
  refine ⟨List.mem_of_find?_eq_some h, ?_⟩
  have hp := List.find?_some h
  simpa using hp

theorem msgsFold_refine (vars : List VarNode) (fs : List FactorNode)
    (step : List FactorNode → Cache → String → Option (Distribution × List FactorNode × Cache))
    (pure0 : Nat → String → Option Distribution)
    (hmono : ∀ k1 k2, k1 ≤ k2 → ∀ g m, pure0 k1 g = some m → pure0 k2 g = some m)
    (hstep : ∀ cache g m fs2 c2, Coherent vars fs cache → g ∈ facNames fs →
      step fs cache g = some (m, fs2, c2) →
      fs2 = fs ∧ Coherent vars fs c2 ∧ ∃ k, pure0 k g = some m) :
    ∀ gs cache ms fs1 c1, (∀ g ∈ gs, g ∈ facNames fs) → Coherent vars fs cache →
      msgsFold step fs cache gs = some (ms, fs1, c1) →
      fs1 = fs ∧ Coherent vars fs c1 ∧ ∃ k, pureMsgs (pure0 k) gs = some ms := by
  intro gs
  induction gs with
  | nil =>
    intro cache ms fs1 c1 _ hcoh h
    simp only [msgsFold] at h
    cases h
    exact ⟨rfl, hcoh, ⟨0, rfl⟩⟩
  | cons g gs ihl =>
    intro cache ms fs1 c1 hmem hcoh h
    simp only [msgsFold] at h
    split at h
    · exact absurd h (by simp)
    next m fs2 c2 hs =>
      split at h
      · exact absurd h (by simp)
      next ms2 fs3 c3 hrec =>
        cases h
        obtain ⟨hfs2, hcoh2, k1, hk1⟩ := hstep cache g m fs2 c2 hcoh (hmem g (by simp)) hs
        rw [hfs2] at hrec
        obtain ⟨hfs3, hcoh3, k2, hk2⟩ :=
          ihl c2 ms2 fs1 c1 (fun g2 hg2 => hmem g2 (by simp [hg2])) hcoh2 hrec
        refine ⟨hfs3, hcoh3, ⟨max k1 k2, ?_⟩⟩
        simp only [pureMsgs]
        have hh1 : pure0 (max k1 k2) g = some m :=
          hmono k1 _ (Nat.le_max_left _ _) g m hk1
        have hh2 : pureMsgs (pure0 (max k1 k2)) gs = some ms2 :=
          pureMsgs_mono_step (pure0 k2) (pure0 (max k1 k2))
            (fun g2 m2 h2 => hmono k2 _ (Nat.le_max_right _ _) g2 m2 h2) gs ms2 hk2
        simp only [hh1, hh2]

theorem mulFold_refine (vars : List VarNode) (fs : List FactorNode)
    (step : List FactorNode → Cache → String → Option (Distribution × List FactorNode × Cache))
    (pure0 : Nat → String → Option Distribution)
    (hmono : ∀ k1 k2, k1 ≤ k2 → ∀ w m, pure0 k1 w = some m → pure0 k2 w = some m)
    (hstep : ∀ cache w m fs2 c2, Coherent vars fs cache → w ∈ varNames vars →
      step fs cache w = some (m, fs2, c2) →
      fs2 = fs ∧ Coherent vars fs c2 ∧ ∃ k, pure0 k w = some m) :
    ∀ us cache d dout fs1 c1, (∀ w ∈ us, w ∈ varNames vars) → Coherent vars fs cache →
      mulFold step fs cache us d = some (dout, fs1, c1) →
      fs1 = fs ∧ Coherent vars fs c1 ∧ ∃ k, pureMulFold (pure0 k) us d = some dout := by
  intro us
  induction us with
  | nil =>
    intro cache d dout fs1 c1 _ hcoh h
    simp only [mulFold] at h
    cases h
    exact ⟨rfl, hcoh, ⟨0, rfl⟩⟩
  | cons w us ihl =>
    intro cache d dout fs1 c1 hmem hcoh h
    simp only [mulFold] at h
    split at h
    · exact absurd h (by simp)
    next m fs2 c2 hs =>
      split at h
      · exact absurd h (by simp)
      next d2 hd2 =>
        obtain ⟨hfs2, hcoh2, k1, hk1⟩ := hstep cache w m fs2 c2 hcoh (hmem w (by simp)) hs
        rw [hfs2] at h
        obtain ⟨hfs3, hcoh3, k2, hk2⟩ :=
          ihl c2 d2 dout fs1 c1 (fun w2 hw2 => hmem w2 (by simp [hw2])) hcoh2 h
        refine ⟨hfs3, hcoh3, ⟨max k1 k2, ?_⟩⟩
        simp only [pureMulFold]
        have hh1 : pure0 (max k1 k2) w = some m :=
          hmono k1 _ (Nat.le_max_left _ _) w m hk1
        have hh2 : pureMulFold (pure0 (max k1 k2)) us d2 = some dout :=
          pureMulFold_mono_step (pure0 k2) (pure0 (max k1 k2))
            (fun w2 m2 h2 => hmono k2 _ (Nat.le_max_right _ _) w2 m2 h2) us d2 dout hk2
        simp only [hh1, hd2, hh2]

theorem engineRefines : ∀ fuel : Nat,
    (∀ vars fs cache v f m fs1 c1,
      wfGraph vars fs = true → disjointNames vars fs = true →
      Coherent vars fs cache → v ∈ varNames vars → f ∈ facNames fs →
      variable_to_factor_messages fuel vars fs cache v f = some (m, fs1, c1) →
      fs1 = fs ∧ Coherent vars fs c1 ∧ ∃ k, msgVFpure k vars fs v f = some m) ∧
    (∀ vars fs cache f v m fs1 c1,
      wfGraph vars fs = true → disjointNames vars fs = true →
      Coherent vars fs cache → f ∈ facNames fs → v ∈ varNames vars →
      factor_to_variable_message fuel vars fs cache f v = some (m, fs1, c1) →
      fs1 = fs ∧ Coherent vars fs c1 ∧ ∃ k, msgFVpure k vars fs f v = some m) := by
  intro fuel
  induction fuel with
  | zero =>
    constructor <;> intro vars fs cache a b m fs1 c1 _ _ _ _ _ h <;>
      simp [variable_to_factor_messages, factor_to_variable_message] at h
  | succ fuel ih =>
    obtain ⟨ihv, ihf⟩ := ih
    constructor
    · intro vars fs cache v f m fs1 c1 hwf hdisj hcoh hv hf h
      simp only [variable_to_factor_messages] at h
      split at h
      next m0 hit =>
        simp only [Option.some.injEq, Prod.mk.injEq] at h
        obtain ⟨hm, hfs, hc⟩ := h
        refine ⟨hfs.symm, hc ▸ hcoh, ?_⟩
        have hmem := mem_of_lookup_eq_some _ _ _ hit
        rcases hcoh (v, f) m0 hmem with ⟨-, -, k, hk⟩ | ⟨hvfac, -, -⟩
        · exact ⟨k, hm ▸ hk⟩
        · exfalso
          simp only [disjointNames, List.all_eq_true] at hdisj
          have hnv := hdisj v hv
          simp at hnv
          exact hnv hvfac
      next hmiss =>
        split at h
        · exact absurd h (by simp)
        next nd hnd =>
          split at h
          · exact absurd h (by simp)
          next ms fsx cx hms =>
            simp only [Option.some.injEq, Prod.mk.injEq] at h
            obtain ⟨hm, hfs, hc⟩ := h
            obtain ⟨hndmem, hndname⟩ := findVar_name_mem vars v nd hnd
            have hnb : ∀ g ∈ nd.neighbors, g ∈ facNames fs := by
              simp only [wfGraph, Bool.and_eq_true, List.all_eq_true] at hwf
              intro g hg
              have := hwf.1 nd hndmem g hg
              simpa using this
            obtain ⟨hfsx, hcohx, k, hk⟩ := msgsFold_refine vars fs
              (fun fs2 c2 g => factor_to_variable_message fuel vars fs2 c2 g v)
              (fun k g => msgFVpure k vars fs g v)
              (fun k1 k2 hle g m2 hm2 => msgFVpure_le k1 k2 hle vars fs g v m2 hm2)
              (fun cache2 g m2 fs2 c2 hcoh2 hg hcall =>
                ihf vars fs cache2 g v m2 fs2 c2 hwf hdisj hcoh2 hg hv hcall)
              (nd.neighbors.filter (fun g => g ≠ f)) cache ms fsx cx
              (fun g hg => hnb g (List.mem_of_mem_filter hg))
              hcoh hms
            have hpure : msgVFpure (k + 1) vars fs v f =
                some (ms.foldl msgMul (scalarOne v)) := by
              simp only [msgVFpure, hnd, hk]
            have happ : Coherent vars fs (cx ++ [((v, f), ms.foldl msgMul (scalarOne v))]) :=
              Coherent_append vars fs cx hcohx (v, f) _ (Or.inl ⟨hv, hf, k + 1, hpure⟩)
            exact ⟨hfs ▸ hfsx, hc ▸ happ, hm ▸ ⟨k + 1, hpure⟩⟩
    · intro vars fs cache f v m fs1 c1 hwf hdisj hcoh hf hv h
      simp only [factor_to_variable_message] at h
      split at h
      next m0 hit =>
        simp only [Option.some.injEq, Prod.mk.injEq] at h
        obtain ⟨hm, hfs, hc⟩ := h
        refine ⟨hfs.symm, hc ▸ hcoh, ?_⟩
        have hmem := mem_of_lookup_eq_some _ _ _ hit
        rcases hcoh (f, v) m0 hmem with ⟨hfvar, -, -⟩ | ⟨-, -, k, hk⟩
        · exfalso
          simp only [disjointNames, List.all_eq_true] at hdisj
          have hnv := hdisj f hfvar
          simp at hnv
          exact hnv hf
        · exact ⟨k, hm ▸ hk⟩
      next hmiss =>
        split at h
        · exact absurd h (by simp)
        next fac hfac =>
          split at h
          · exact absurd h (by simp)
          next d0 hd0 =>
            split at h
            · exact absurd h (by simp)
            next d1 fsx cx hms =>
              simp only [Option.some.injEq, Prod.mk.injEq] at h
              obtain ⟨hm, hfs, hc⟩ := h
              obtain ⟨hfacmem, hfacname⟩ := findFac_name_mem fs f fac hfac
              have hnb : ∀ w ∈ fac.neighbors, w ∈ varNames vars := by
                simp only [wfGraph, Bool.and_eq_true, List.all_eq_true] at hwf
                intro w hw
                have := hwf.2 fac hfacmem w hw
                simpa using this
              obtain ⟨hfsx, hcohx, k, hk⟩ := mulFold_refine vars fs
                (fun fs2 c2 w => variable_to_factor_messages fuel vars fs2 c2 w f)
                (fun k w => msgVFpure k vars fs w f)
                (fun k1 k2 hle w m2 hm2 => msgVFpure_le k1 k2 hle vars fs w f m2 hm2)
                (fun cache2 w m2 fs2 c2 hcoh2 hw hcall =>
                  ihv vars fs cache2 w f m2 fs2 c2 hwf hdisj hcoh2 hw hf hcall)
                (fac.neighbors.filter (fun w => w ≠ v)) cache
                (Distribution.mk d0.probs d0.axes_labels) d1 fsx cx
                (fun w hw => hnb w (List.mem_of_mem_filter hw)) hcoh hms
              have hpure : msgFVpure (k + 1) vars fs f v = some (sumOther d1 v) := by
                simp only [msgFVpure, hfac, hd0, hk]
              have happ : Coherent vars fs (cx ++ [((f, v), sumOther d1 v)]) :=
                Coherent_append vars fs cx hcohx (f, v) _ (Or.inr ⟨hf, hv, k + 1, hpure⟩)
              exact ⟨hfs ▸ hfsx, hc ▸ happ, hm ▸ ⟨k + 1, hpure⟩⟩

/-- C4: the variable-to-factor message the engine returns for an edge
(V, F) equals the product, over every factor G other than F neighboring
V, of the per-edge incoming messages msg(G to V), folded onto the
multiplicative identity; in particular, when V has no neighbor besides
F the message is the scalar 1.0.  The hypotheses say the graph is the
well-formed bipartite graph the parser produces and the cache holds
only true per-edge message values (as the engine itself maintains,
starting from the empty cache of a fresh Messages instance). -/
theorem vtof_message_is_product (fuel : Nat) (vars : List VarNode) (fs : List FactorNode)
    (cache : Cache) (v f : String) (m : Distribution) (fs1 : List FactorNode) (c1 : Cache)
    (hwf : wfGraph vars fs = true) (hdisj : disjointNames vars fs = true)
    (hcoh : Coherent vars fs cache) (hv : v ∈ varNames vars) (hf : f ∈ facNames fs)
    (hrun : variable_to_factor_messages fuel vars fs cache v f = some (m, fs1, c1)) :
    ∃ k nd ms, findVar vars v = some nd ∧
      pureMsgs (fun g => msgFVpure k vars fs g v)
        (nd.neighbors.filter (fun g => g ≠ f)) = some ms ∧
      m = ms.foldl msgMul (scalarOne v) ∧
      (nd.neighbors.filter (fun g => g ≠ f) = [] → m = scalarOne v) := by
  obtain ⟨-, -, k, hk⟩ :=
    (engineRefines fuel).1 vars fs cache v f m fs1 c1 hwf hdisj hcoh hv hf hrun
  cases k with
  | zero => simp [msgVFpure] at hk
  | succ k2 =>
    simp only [msgVFpure] at hk
    split at hk
    · exact absurd hk (by simp)
    next nd hnd =>
      split at hk
      · exact absurd hk (by simp)
      next ms hms =>
        have hmeq : m = ms.foldl msgMul (scalarOne v) := (Option.some.inj hk).symm
        refine ⟨k2, nd, ms, hnd, hms, hmeq, ?_⟩
        intro hempty
        rw [hempty] at hms
        have hms2 : ms = [] := by simpa [pureMsgs] using hms.symm
        rw [hmeq, hms2]
        rfl

theorem vtof_message_is_product_witness :
    ∃ k nd ms, findVar chainVars "v1" = some nd ∧
      pureMsgs (fun g => msgFVpure k chainVars chainFs g "v1")
        (nd.neighbors.filter (fun g => g ≠ "p(v1|h1)")) = some ms ∧
      scalarOne "v1" = ms.foldl msgMul (scalarOne "v1") ∧
      (nd.neighbors.filter (fun g => g ≠ "p(v1|h1)") = [] →
        scalarOne "v1" = scalarOne "v1") :=
  vtof_message_is_product 20 chainVars chainFs [] "v1" "p(v1|h1)" (scalarOne "v1") chainFs
    [(("v1", "p(v1|h1)"), scalarOne "v1")]
    (by with_unfolding_all decide) (by with_unfolding_all decide)
    (fun p m h => absurd h (List.not_mem_nil _))
    (by with_unfolding_all decide) (by with_unfolding_all decide)
    (by with_unfolding_all decide)

/-! ### Row-major indexing facts for the broadcast product (C5) -/

theorem dictGet_lt_length (T : Distribution) (u : String) (axis : Nat)
    (h : dictGet T.get_axes u = some axis) : axis < T.axes_labels.length := by
  unfold dictGet at h
  have hm := mem_of_lookup_eq_some _ _ _ h
  have hm2 : (u, axis) ∈ T.get_axes := List.mem_reverse.mp hm
  obtain ⟨q, hq, he⟩ := List.mem_map.mp hm2
  have hax : q.1 = axis := congrArg Prod.snd he
  have hg := List.mem_enum_iff_getElem?.mp hq
  obtain ⟨hw, -⟩ := List.getElem?_eq_some.mp hg
  rw [← hax]
  exact hw

theorem length_allIdx (s : List Nat) : (allIdx s).length = listProd s := by
  induction s with
  | nil => rfl
  | cons d ds ih =>
    rw [allIdx, List.length_flatten, List.map_map]
    have hmap : (List.range d).map (List.length ∘ fun i => (allIdx ds).map (fun t => i :: t)) =
        List.replicate d (listProd ds) := by
      apply List.eq_replicate_iff.mpr
      refine ⟨by simp, fun b hb => ?_⟩
      obtain ⟨i, hi, hbe⟩ := List.mem_map.mp hb
      rw [← hbe]
      simp [ih]
    rw [hmap, List.sum_const_nat]
    rfl

theorem flatten_lt (s : List Nat) : ∀ idx, validIdx s idx = true → flatten s idx < listProd s := by
  induction s with
  | nil =>
    intro idx h
    cases idx with
    | nil => simp [flatten, listProd]
    | cons i is => simp [validIdx] at h
  | cons d ds ih =>
    intro idx h
    cases idx with
    | nil => simp [validIdx] at h
    | cons i is =>
      simp only [validIdx, Bool.and_eq_true, decide_eq_true_eq] at h
      obtain ⟨hi, hrest⟩ := h
      have h1 := ih is hrest
      have h2 : flatten (d :: ds) (i :: is) = i * listProd ds + flatten ds is := rfl
      have h3 : listProd (d :: ds) = d * listProd ds := rfl
      rw [h2, h3]
      calc i * listProd ds + flatten ds is < i * listProd ds + listProd ds := by omega
        _ = (i + 1) * listProd ds := by ring
        _ ≤ d * listProd ds := Nat.mul_le_mul_right _ hi

theorem flatten_get?_uniform {α : Type} (len : Nat) :
    ∀ (L : List (List α)), (∀ l ∈ L, l.length = len) →
      ∀ j r, r < len → j < L.length → L.flatten[j * len + r]? = (L.getD j [])[r]? := by
  intro L
  induction L with
  | nil =>
    intro _ j r _ hj
    simp at hj
  | cons l L ih =>
    intro hL j r hr hj
    have hl : l.length = len := hL l (by simp)
    cases j with
    | zero =>
      simp only [List.flatten_cons, Nat.zero_mul, Nat.zero_add, List.getD_cons_zero]
      exact List.getElem?_append_left (by omega)
    | succ j2 =>
      rw [List.flatten_cons, List.getD_cons_succ]
      have harith : (j2 + 1) * len + r = l.length + (j2 * len + r) := by
        rw [hl]; ring
      rw [harith, List.getElem?_append_right (Nat.le_add_right _ _)]
      rw [Nat.add_sub_cancel_left]
      exact ih (fun x hx => hL x (by simp [hx])) j2 r hr (by simpa using hj)

theorem allIdx_get? (s : List Nat) : ∀ idx, validIdx s idx = true →
    (allIdx s)[flatten s idx]? = some idx := by
  induction s with
  | nil =>
    intro idx h
    cases idx with
    | nil => rfl
    | cons i is => simp [validIdx] at h
  | cons d ds ih =>
    intro idx h
    cases idx with
    | nil => simp [validIdx] at h
    | cons i is =>
      simp only [validIdx, Bool.and_eq_true, decide_eq_true_eq] at h
      obtain ⟨hi, hrest⟩ := h
      have hflat : flatten (d :: ds) (i :: is) = i * listProd ds + flatten ds is := rfl
      have hunif : ∀ l ∈ (List.range d).map (fun i2 => (allIdx ds).map (fun t => i2 :: t)),
          l.length = listProd ds := by
        intro l hl
        obtain ⟨i2, hi2, hbe⟩ := List.mem_map.mp hl
        rw [← hbe]
        simp [length_allIdx]
      have hjlt : i < ((List.range d).map (fun i2 => (allIdx ds).map (fun t => i2 :: t))).length := by
        simpa using hi
      rw [hflat, allIdx,
        flatten_get?_uniform (listProd ds) _ hunif i (flatten ds is) (flatten_lt ds is hrest) hjlt]
      have hgd : ((List.range d).map (fun i2 => (allIdx ds).map (fun t => i2 :: t))).getD i [] =
          (allIdx ds).map (fun t => i :: t) := by
        rw [List.getD_eq_getElem?_getD, List.getElem?_map, List.getElem?_range hi]
        rfl
      rw [hgd, List.getElem?_map, ih is hrest]
      rfl

theorem get_ofIdxFn (s : List Nat) (f : List Nat → ℚ) (idx : List Nat)
    (h : validIdx s idx = true) : (ofIdxFn s f).get idx = f idx := by
  show ((allIdx s).map f).getD (flatten s idx) 0 = f idx
  rw [List.getD_eq_getElem?_getD, List.getElem?_map, allIdx_get? s idx h]
  rfl

theorem validIdx_length (s : List Nat) : ∀ idx, validIdx s idx = true → idx.length = s.length := by
  induction s with
  | nil =>
    intro idx h
    cases idx with
    | nil => rfl
    | cons i is => simp [validIdx] at h
  | cons d ds ih =>
    intro idx h
    cases idx with
    | nil => simp [validIdx] at h
    | cons i is =>
      simp only [validIdx, Bool.and_eq_true] at h
      simp [ih is h.2]

theorem bAdjust_self (s : List Nat) : ∀ idx, validIdx s idx = true → bAdjust s idx = idx := by
  induction s with
  | nil =>
    intro idx h
    cases idx with
    | nil => rfl
    | cons i is => simp [validIdx] at h
  | cons d ds ih =>
    intro idx h
    cases idx with
    | nil => simp [validIdx] at h
    | cons i is =>
      simp only [validIdx, Bool.and_eq_true, decide_eq_true_eq] at h
      obtain ⟨hi, hrest⟩ := h
      have hlen : (i :: is).length = (d :: ds).length := by
        apply validIdx_length
        simp [validIdx, hi, hrest]
      unfold bAdjust
      rw [hlen, Nat.sub_self, List.drop_zero]
      have htail : List.zipWith (fun d2 i2 => if d2 = 1 then 0 else i2) ds is = is := by
        have hb := ih is hrest
        unfold bAdjust at hb
        rw [validIdx_length ds is hrest, Nat.sub_self, List.drop_zero] at hb
        exact hb
      simp only [List.zipWith_cons_cons, htail]
      congr 1
      by_cases hd : d = 1
      · subst hd
        have hz : i = 0 := by omega
        simp [hz]
      · simp [hd]

theorem listProd_replicate_one (k : Nat) : listProd (List.replicate k 1) = 1 := by
  induction k with
  | zero => rfl
  | succ k ih =>
    rw [List.replicate_succ]
    show 1 * listProd (List.replicate k 1) = 1
    rw [ih]

theorem flatten_ones_zipWith (k : Nat) : ∀ is : List Nat,
    flatten (List.replicate k 1)
      (List.zipWith (fun d i => if d = 1 then 0 else i) (List.replicate k 1) is) = 0 := by
  induction k with
  | zero => intro is; rfl
  | succ k ih =>
    intro is
    cases is with
    | nil => rfl
    | cons i is =>
      rw [List.replicate_succ]
      simp only [List.zipWith_cons_cons, if_pos rfl]
      show 0 * listProd (List.replicate k 1) + flatten (List.replicate k 1)
        (List.zipWith (fun d i => if d = 1 then 0 else i) (List.replicate k 1) is) = 0
      rw [Nat.zero_mul, Nat.zero_add]
      exact ih is

theorem bdim_one_right (d : Nat) : bdim d 1 = some d := by
  unfold bdim
  by_cases h : d = 1 <;> simp [h]

theorem bshape_ones (s : List Nat) : bshape s (List.replicate s.length 1) = some s := by
  induction s with
  | nil => rfl
  | cons d ds ih =>
    rw [List.length_cons, List.replicate_succ]
    simp only [bshape, bdim_one_right, ih]

theorem bshape_oneHot (s : List Nat) : ∀ axis n, axis < s.length → s.getD axis 0 = n →
    bshape s ((List.range s.length).map (fun i => if i = axis then n else 1)) = some s := by
  induction s with
  | nil => intro axis n h _; simp at h
  | cons d ds ih =>
    intro axis n haxis hget
    rw [List.length_cons, List.range_succ_eq_map, List.map_cons, List.map_map]
    cases axis with
    | zero =>
      have hd : d = n := by simpa using hget
      have htail : (List.range ds.length).map ((fun i => if i = 0 then n else 1) ∘ Nat.succ) =
          List.replicate ds.length 1 := by
        apply List.eq_replicate_iff.mpr
        refine ⟨by simp, fun b hb => ?_⟩
        obtain ⟨j, hj, hbe⟩ := List.mem_map.mp hb
        simpa using hbe.symm
      rw [if_pos rfl, htail]
      subst hd
      have h1 : bdim d d = some d := by simp [bdim]
      simp only [bshape, h1, bshape_ones ds]
    | succ ax =>
      have htail : (List.range ds.length).map ((fun i => if i = ax + 1 then n else 1) ∘ Nat.succ) =
          (List.range ds.length).map (fun i => if i = ax then n else 1) := by
        apply List.map_congr_left
        intro j hj
        simp [Function.comp, Nat.succ_inj]
      rw [if_neg (by omega), htail]
      have h2 := ih ax n (by simpa using haxis) (by simpa using hget)
      simp only [bshape, bdim_one_right, h2]

theorem flatten_oneHot_adjust (s : List Nat) :
    ∀ idx axis n, validIdx s idx = true → axis < s.length → s.getD axis 0 = n →
    flatten ((List.range s.length).map (fun i => if i = axis then n else 1))
      (List.zipWith (fun d i => if d = 1 then 0 else i)
        ((List.range s.length).map (fun i => if i = axis then n else 1)) idx)
      = idx.getD axis 0 := by
  induction s with
  | nil => intro idx axis n _ haxis _; simp at haxis
  | cons d ds ih =>
    intro idx axis n h haxis hget
    cases idx with
    | nil => simp [validIdx] at h
    | cons i is =>
      simp only [validIdx, Bool.and_eq_true, decide_eq_true_eq] at h
      obtain ⟨hi, hrest⟩ := h
      rw [List.length_cons, List.range_succ_eq_map, List.map_cons, List.map_map]
      cases axis with
      | zero =>
        have htail : (List.range ds.length).map ((fun i2 => if i2 = 0 then n else 1) ∘ Nat.succ) =
            List.replicate ds.length 1 := by
          apply List.eq_replicate_iff.mpr
          refine ⟨by simp, fun b hb => ?_⟩
          obtain ⟨j, hj, hbe⟩ := List.mem_map.mp hb
          simpa using hbe.symm
        rw [if_pos rfl, htail]
        simp only [List.zipWith_cons_cons, List.getD_cons_zero]
        show (if n = 1 then 0 else i) * listProd (List.replicate ds.length 1) +
          flatten (List.replicate ds.length 1)
            (List.zipWith (fun d2 i2 => if d2 = 1 then 0 else i2)
              (List.replicate ds.length 1) is) = i
        rw [listProd_replicate_one, flatten_ones_zipWith]
        have hd : d = n := by simpa using hget
        by_cases hn : n = 1
        · rw [if_pos hn]
          omega
        · simp [hn]
      | succ ax =>
        have htail : (List.range ds.length).map
            ((fun i2 => if i2 = ax + 1 then n else 1) ∘ Nat.succ) =
            (List.range ds.length).map (fun i2 => if i2 = ax then n else 1) := by
          apply List.map_congr_left
          intro j hj
          simp [Function.comp, Nat.succ_inj]
        rw [if_neg (by omega), htail]
        simp only [List.zipWith_cons_cons, if_pos rfl, List.getD_cons_succ]
        show 0 * listProd ((List.range ds.length).map (fun i2 => if i2 = ax then n else 1)) +
          flatten ((List.range ds.length).map (fun i2 => if i2 = ax then n else 1))
            (List.zipWith (fun d2 i2 => if d2 = 1 then 0 else i2)
              ((List.range ds.length).map (fun i2 => if i2 = ax then n else 1)) is)
            = is.getD ax 0
        rw [Nat.zero_mul, Nat.zero_add]
        exact ih is ax n hrest (by simpa using haxis) (by simpa using hget)

theorem padShape_of_length (r : Nat) (s : List Nat) (h : s.length = r) : padShape r s = s := by
  simp [padShape, h]

/-- C5: multiply on a tensor T and a tensor U with exactly one axis
name, that name occurring in T: with U one-dimensional, U is reshaped
onto the position of its axis inside T (size-1 dimensions everywhere
else) and elementwise-multiplied against T under the numpy broadcasting
rules; with U rank-0 its bare scalar value multiplies every entry.  In
both cases the result is a new tensor carrying the axis labels of T,
the shape (hence rank) of T, and the stated elementwise products. -/
theorem multiply_broadcast_spec (T U : Distribution) (u : String) (axis n : Nat)
    (hwf : T.axes_labels.length = T.probs.shape.length)
    (hu : U.axes_labels = [u])
    (haxis : dictGet T.get_axes u = some axis) :
    (U.probs.shape = [n] → T.probs.shape.getD axis 0 = n →
      ∃ R, multiply T U = .ok R ∧ R.axes_labels = T.axes_labels ∧
        R.probs.shape = T.probs.shape ∧
        ∀ idx, validIdx T.probs.shape idx = true →
          R.probs.get idx = T.probs.get idx * U.probs.data.getD (idx.getD axis 0) 0) ∧
    (U.probs.shape = [] →
      ∃ R, multiply T U = .ok R ∧ R.axes_labels = T.axes_labels ∧
        R.probs.shape = T.probs.shape ∧
        ∀ idx, validIdx T.probs.shape idx = true →
          R.probs.get idx = T.probs.get idx * U.probs.data.getD 0 0) := by
  have haxlt : axis < T.probs.shape.length := by
    have := dictGet_lt_length T u axis haxis
    omega
  have hax : U.get_axes = [(u, 0)] := by
    simp [Distribution.get_axes, hu, List.enum, List.enumFrom]
  have hndim : T.probs.ndim = T.probs.shape.length := rfl
  constructor
  · intro hU hdim
    have hlp : listProd U.probs.shape = n := by
      rw [hU]
      show n * 1 = n
      omega
    have hresh : npReshapeOneHot U.probs T.probs.ndim axis =
        some ⟨(List.range T.probs.shape.length).map (fun i => if i = axis then n else 1),
          U.probs.data⟩ := by
      unfold npReshapeOneHot
      rw [if_pos (by rw [hndim]; exact haxlt), hlp, hndim]
    set oneHot : List Nat :=
      (List.range T.probs.shape.length).map (fun i => if i = axis then n else 1) with honeHot
    have hlenOne : oneHot.length = T.probs.shape.length := by simp [honeHot]
    have hbs : bshape T.probs.shape oneHot = some T.probs.shape :=
      bshape_oneHot T.probs.shape axis n haxlt hdim
    have hnpmul : npMul T.probs ⟨oneHot, U.probs.data⟩ =
        some (ofIdxFn T.probs.shape (fun idx =>
          T.probs.get (bAdjust T.probs.shape idx) *
          (⟨oneHot, U.probs.data⟩ : NDArray).get (bAdjust oneHot idx))) := by
      unfold npMul
      have hr : max T.probs.ndim (NDArray.ndim ⟨oneHot, U.probs.data⟩) =
          T.probs.shape.length := by
        simp [NDArray.ndim, hlenOne, hndim]
      simp only [hr]
      rw [padShape_of_length _ T.probs.shape rfl]
      rw [padShape_of_length _ oneHot hlenOne, hbs]
    have hmul : multiply T U = .ok ⟨ofIdxFn T.probs.shape (fun idx =>
        T.probs.get (bAdjust T.probs.shape idx) *
        (⟨oneHot, U.probs.data⟩ : NDArray).get (bAdjust oneHot idx)), T.axes_labels⟩ := by
      simp only [multiply, hax, haxis]
      rw [if_pos (show U.probs.shape ≠ [] from by simp [hU])]
      simp only [hresh, hnpmul]
    refine ⟨_, hmul, rfl, rfl, ?_⟩
    intro idx hvalid
    show (ofIdxFn T.probs.shape (fun idx =>
        T.probs.get (bAdjust T.probs.shape idx) *
        (⟨oneHot, U.probs.data⟩ : NDArray).get (bAdjust oneHot idx))).get idx = _
    rw [get_ofIdxFn _ _ _ hvalid, bAdjust_self T.probs.shape idx hvalid]
    congr 1
    show U.probs.data.getD (flatten oneHot (bAdjust oneHot idx)) 0 =
      U.probs.data.getD (idx.getD axis 0) 0
    congr 1
    unfold bAdjust
    have hdl : idx.length - oneHot.length = 0 := by
      rw [validIdx_length T.probs.shape idx hvalid, hlenOne]
      omega
    rw [hdl, List.drop_zero, honeHot]
    exact flatten_oneHot_adjust T.probs.shape idx axis n hvalid haxlt hdim
  · intro hU
    have hnpmul2 : npMul T.probs U.probs = some (ofIdxFn T.probs.shape (fun idx =>
        T.probs.get (bAdjust T.probs.shape idx) * U.probs.get (bAdjust U.probs.shape idx))) := by
      unfold npMul
      have hr2 : max T.probs.ndim U.probs.ndim = T.probs.shape.length := by
        simp [NDArray.ndim, hU, hndim]
      simp only [hr2]
      have hpad : padShape T.probs.shape.length U.probs.shape =
          List.replicate T.probs.shape.length 1 := by
        rw [hU]
        simp [padShape]
      rw [padShape_of_length _ T.probs.shape rfl, hpad, bshape_ones]
    have hmul2 : multiply T U = .ok ⟨ofIdxFn T.probs.shape (fun idx =>
        T.probs.get (bAdjust T.probs.shape idx) *
        U.probs.get (bAdjust U.probs.shape idx)), T.axes_labels⟩ := by
      simp only [multiply, hax, haxis]
      rw [if_neg (show ¬(U.probs.shape ≠ []) from by simp [hU])]
      simp only [hnpmul2]
    refine ⟨_, hmul2, rfl, rfl, ?_⟩
    intro idx hvalid
    show (ofIdxFn T.probs.shape (fun idx =>
        T.probs.get (bAdjust T.probs.shape idx) *
        U.probs.get (bAdjust U.probs.shape idx))).get idx = _
    rw [get_ofIdxFn _ _ _ hvalid, bAdjust_self T.probs.shape idx hvalid]
    congr 1
    show U.probs.data.getD (flatten U.probs.shape (bAdjust U.probs.shape idx)) 0 =
      U.probs.data.getD 0 0
    congr 1
    rw [hU]
    rfl


theorem multiply_broadcast_spec_witness :
    ∃ R, multiply mulT mulU = .ok R ∧ R.axes_labels = mulT.axes_labels ∧
      R.probs.shape = mulT.probs.shape ∧
      ∀ idx, validIdx mulT.probs.shape idx = true →
        R.probs.get idx = mulT.probs.get idx * mulU.probs.data.getD (idx.getD 1 0) 0 :=
  (multiply_broadcast_spec mulT mulU "h1" 1 3 rfl rfl (by with_unfolding_all decide)).1 rfl rfl

/-! ### The message engine never mutates the factor store (C9) -/

theorem msgsFold_frame (step : List FactorNode -> Cache -> String ->
    Option (Distribution × List FactorNode × Cache))
    (hstep : ∀ fs c g out, step fs c g = some out -> out.2.1 = fs) :
    ∀ gs fs c out, msgsFold step fs c gs = some out -> out.2.1 = fs := by
  intro gs
  induction gs with
  | nil =>
    intro fs c out h
    simp only [msgsFold] at h
    cases h
    rfl
  | cons g gs ih =>
    intro fs c out h
    simp only [msgsFold] at h
    split at h
    · exact absurd h (by simp)
    next m fs1 c1 hs =>
      split at h
      · exact absurd h (by simp)
      next ms fs2 c2 hrec =>
        cases h
        have h1 := hstep fs c g _ hs
        have h2 := ih fs1 c1 _ hrec
        simp only at h1 h2
        simp only [h2, h1]

theorem mulFold_frame (step : List FactorNode -> Cache -> String ->
    Option (Distribution × List FactorNode × Cache))
    (hstep : ∀ fs c g out, step fs c g = some out -> out.2.1 = fs) :
    ∀ us fs c d out, mulFold step fs c us d = some out -> out.2.1 = fs := by
  intro us
  induction us with
  | nil =>
    intro fs c d out h
    simp only [mulFold] at h
    cases h
    rfl
  | cons u us ih =>
    intro fs c d out h
    simp only [mulFold] at h
    split at h
    · exact absurd h (by simp)
    next m fs1 c1 hs =>
      split at h
      · exact absurd h (by simp)
      next d2 hm =>
        have h1 := hstep fs c u _ hs
        have h2 := ih fs1 c1 d2 _ h
        simp only at h1 h2
        simp only [h2, h1]

theorem engineFrameAux : ∀ fuel : Nat,
    (∀ vars fs cache v f out,
      variable_to_factor_messages fuel vars fs cache v f = some out -> out.2.1 = fs) ∧
    (∀ vars fs cache f v out,
      factor_to_variable_message fuel vars fs cache f v = some out -> out.2.1 = fs) := by
  intro fuel
  induction fuel with
  | zero =>
    constructor <;> intro vars fs cache a b out h <;>
      simp [variable_to_factor_messages, factor_to_variable_message] at h
  | succ fuel ih =>
    obtain ⟨ihv, ihf⟩ := ih
    constructor
    · intro vars fs cache v f out h
      simp only [variable_to_factor_messages] at h
      split at h
      · cases h; rfl
      · split at h
        · exact absurd h (by simp)
        next nd hnd =>
          split at h
          · exact absurd h (by simp)
          next ms fs1 c1 hms =>
            cases h
            exact msgsFold_frame _ (fun fs0 c0 g out0 h0 => ihf vars fs0 c0 g v out0 h0)
              _ fs cache _ hms
    · intro vars fs cache f v out h
      simp only [factor_to_variable_message] at h
      split at h
      · cases h; rfl
      · split at h
        · exact absurd h (by simp)
        next fac hfac =>
          split at h
          · exact absurd h (by simp)
          next d0 hd0 =>
            split at h
            · exact absurd h (by simp)
            next d1 fs1 c1 hms =>
              cases h
              have hfr := mulFold_frame _ (fun fs0 c0 g out0 h0 => ihv vars fs0 c0 g f out0 h0)
                _ fs cache _ (d1, fs1, c1) hms
              simpa using hfr

/-- C9: message computation never mutates the factor store: a
successful message or marginal computation returns the factor nodes
(and hence the stored tensor, values and axis labels, of every factor)
exactly as given; the computed message is a freshly built distribution.
Tensor algebra itself is non-mutating by construction in the embedding:
multiply returns a new Distribution value and leaves its operands to
the caller unchanged. -/
theorem message_computation_frame (fuel : Nat) (vars : List VarNode) (fs : List FactorNode)
    (cache : Cache) (a b : String) :
    (∀ out, variable_to_factor_messages fuel vars fs cache a b = some out → out.2.1 = fs) ∧
    (∀ out, factor_to_variable_message fuel vars fs cache a b = some out → out.2.1 = fs) ∧
    (∀ out, marginal fuel vars fs cache a = some out → out.2.1 = fs) := by
  refine ⟨fun out h => (engineFrameAux fuel).1 vars fs cache a b out h,
    fun out h => (engineFrameAux fuel).2 vars fs cache a b out h, ?_⟩
  intro out h
  simp only [marginal] at h
  split at h
  · exact absurd h (by simp)
  next nd hnd =>
    split at h
    · exact absurd h (by simp)
    next ms fs1 c1 hms =>
      have hfs1 : fs1 = fs := by
        have := msgsFold_frame _
          (fun fs0 c0 g out0 h0 => (engineFrameAux fuel).2 vars fs0 c0 g a out0 h0)
          _ fs cache _ hms
        simpa using this
      split at h
      · exact absurd h (by simp)
      next m0 rest =>
        split at h
        · exact absurd h (by simp)
        next d hn =>
          cases h
          exact hfs1

theorem message_computation_frame_witness :
    ((⟨⟨[2], [2/10, 8/10]⟩, ["h1"]⟩, chainFs,
      ([(("p(h1)", "h1"), ⟨⟨[2], [2/10, 8/10]⟩, ["h1"]⟩)] : Cache)) :
        Distribution × List FactorNode × Cache).2.1 = chainFs :=
  (message_computation_frame 20 chainVars chainFs [] "p(h1)" "h1").2.1
    (⟨⟨[2], [2/10, 8/10]⟩, ["h1"]⟩, chainFs,
      [(("p(h1)", "h1"), ⟨⟨[2], [2/10, 8/10]⟩, ["h1"]⟩)])
    (by with_unfolding_all decide)

/-- C10 counterexample: with a data table lacking the entry of p(b) but
carrying a wrong-axes entry for the earlier factor p(a), the call fails
with the missing-axes error of p(a), not with the KeyError of the first
factor whose entry is missing. -/
theorem missing_entry_not_first_error_cex :
    (dataOnlyBadA.lookup "p(b)" = none) ∧
    ((pgmAB.set_distributions dataOnlyBadA).2 = some (.missingAxes "p(a)" ["a"])) := by
  refine ⟨?_, ?_⟩ <;> with_unfolding_all decide

end BP
